import Mathlib

set_option linter.unusedSectionVars false
set_option linter.unusedVariables false

/-
Verification of the concurrent multi-valued key-index library (three index
variants behind one contract: a sharded inverted hash index, a lock-free
skip list, and a concurrent B+ tree).

The C++ sources are embedded shallowly as pure Lean functions; stateful
operations return the updated state explicitly.  All claims are settled in
the sequential (single-thread) semantics: one operation runs to completion
before the next starts, every lock acquisition succeeds immediately, and
every CAS succeeds on its first attempt (the retry branches of the C++
loops are unreachable in this setting).
-/

namespace GdprIndex

/- ===================================================================
   PART 1: DEFINITIONS
   =================================================================== -/

/- -------------------------------------------------------------------
   Sharded Inverted Hash Index  (src/index/inverted_index/inverted_index.hpp)

   `InvertedIndex<K, V, NUM_SHARDS>` keeps an array of shards, each a
   `std::unordered_map<K, std::shared_ptr<Bucket>>` guarded by a
   shared_mutex, where a `Bucket` holds an `std::unordered_set<V>` and
   its own shared_mutex.  A key `k` always resolves to the single shard
   `shards[hash(k) % NUM_SHARDS]`, so the partition of keys into shards
   never changes which bucket an operation touches; the whole index is
   therefore embedded as one partial map from keys to bucket contents
   (`none` = key absent from its shard's map, `some s` = a bucket with
   value set `s` is present).
   ------------------------------------------------------------------- -/

namespace Inv

/-- The union of all shard maps: for each key, the bucket (its value set)
currently stored for it, if any. -/
abbrev Map (K V : Type) := K → Option (Finset V)

variable {K V : Type} [DecidableEq K] [DecidableEq V]

/-- `InvertedIndex::getOrCreateBucket` (lines 48-70): under the shard read
lock, return the existing bucket; otherwise take the shard write lock,
re-check, and if still absent insert a NEWLY CONSTRUCTED (empty) bucket
into the shard map.  The returned state is the shard map at the moment the
shard write lock is released — the new bucket holds no value yet. -/
def getOrCreateBucket (m : Map K V) (k : K) : Map K V :=
  match m k with
  | some _ => m
  | none => Function.update m k (some (∅ : Finset V))

/-- `InvertedIndex::insert` (lines 74-81): get-or-create the bucket, then
under the bucket write lock insert `value` into the bucket's set; returns
whether the set grew (`std::unordered_set::insert(..).second`). -/
def insert (m : Map K V) (k : K) (v : V) : Map K V × Bool :=
  let m1 := getOrCreateBucket m k
  let s := (m1 k).getD ∅
  (Function.update m1 k (some (Insert.insert v s)), decide (v ∉ s))

/-- `InvertedIndex::search` (lines 83-97): look the key up under the shard
read lock; if absent return the empty set, otherwise return a copy of the
bucket's value set taken under the bucket read lock. -/
def search (m : Map K V) (k : K) : Finset V :=
  (m k).getD ∅

/-- `InvertedIndex::remove(key)` (lines 99-111): under the shard write
lock, erase the entry if present; returns whether something was erased. -/
def removeKey (m : Map K V) (k : K) : Map K V × Bool :=
  match m k with
  | none => (m, false)
  | some _ => (Function.update m k none, true)

/-- `InvertedIndex::remove(key, value)` (lines 113-131): under the shard
write lock look up the bucket; under the bucket write lock erase `value`
(`removed` = it was present); if it was removed and the bucket became
empty, also erase the shard entry.  Returns `removed`. -/
def removeKV (m : Map K V) (k : K) (v : V) : Map K V × Bool :=
  match m k with
  | none => (m, false)
  | some s =>
    if v ∈ s then
      (if s.erase v = ∅ then Function.update m k none
       else Function.update m k (some (s.erase v)), true)
    else (m, false)

/-- The invariant asserted by the spec: every bucket present in a shard map
has a non-empty value set. -/
def shardInv (m : Map K V) : Prop := ∀ k s, m k = some s → s.Nonempty

end Inv

/- -------------------------------------------------------------------
   Lock-Free Skip List  (src/index/skip_list/lock_free_skip_list.hpp)

   Nodes carry a key, an `std::unordered_set<V>` of values, a level, and
   `level` atomic forward pointers whose low bit encodes logical deletion
   (a marked `next[0]` means the whole node is logically deleted).

   The embedding records the level-0 chain of nodes strictly between the
   `head` and `tail` sentinels, in pointer order; a node's `marked` field
   models the mark bit of its `next[0]` pointer.  Level 0 is the ground
   truth of the structure (the source's own correctness argument): the
   higher-level forward pointers and a node's `random_level()` only
   accelerate the right-to-left descent of `find` and never change which
   nodes the level-0 scan visits, which node `succs[0]` designates, or any
   operation's result, so the sequential embedding elides them.  In the
   sequential setting every `compare_exchange` succeeds, so the
   `restart_traversal` / retry branches of `find` and `insert` are
   unreachable and the functions below are their straight-line residue.
   ------------------------------------------------------------------- -/

namespace SL

/-- A skip-list node as seen from level 0: key, value set, and the mark
bit of its `next[0]` pointer (logical deletion). -/
structure Node (K V : Type) where
  key : K
  values : Finset V
  marked : Bool
  deriving DecidableEq

/-- Level-0 chain between the sentinels (`head` and `tail` excluded;
reaching `[]` means reaching `tail`). -/
abbrev Chain (K V : Type) := List (Node K V)

variable {K V : Type} [LinearOrder K] [DecidableEq V]

/-- `LockFreeSkipList::find` (lines 82-118) at level 0: scan rightward
from `head`; on seeing a marked successor pointer, physically unlink the
marked node with a CAS (which here always succeeds); advance past live
nodes with key `< k`; stop at the first live node with key `≥ k`.
Returns `succs[0]` (`none` standing for `tail`) together with the chain
after the unlinking side effects.  The boolean result of the C++ function
is `succs[0] ≠ tail ∧ succs[0]->key == k`. -/
def find : Chain K V → K → Option (Node K V) × Chain K V
  | [], _ => (none, [])
  | n :: rest, k =>
    if n.marked then find rest k
    else if n.key < k then
      let r := find rest k
      (r.1, n :: r.2)
    else (some n, n :: rest)

/-- `LockFreeSkipList::search` (lines 143-153): run `find`; if a node with
the key was found and its `next[0]` is not marked, return a copy of its
value set (taken under the node's value mutex), else the empty set. -/
def search (s : Chain K V) (k : K) : Finset V × Chain K V :=
  match find s k with
  | (some n, s') =>
    if n.key = k ∧ n.marked = false then (n.values, s') else (∅, s')
  | (none, s') => (∅, s')

/-- `LockFreeSkipList::insert` (lines 155-184): run `find`; if a live node
with the key exists, insert the value into its set under the value mutex
and return whether the set grew; otherwise allocate a new node (whose
value set is `{value}`), point it at `succs[0]` and CAS it after
`preds[0]` — sequentially the CAS succeeds, and the higher-level link CASs
only touch the elided acceleration levels.  The walk is the `find` of line
159 with its unlinking side effects; the marked-node retry (line 161) is
unreachable because `find` just unlinked every marked node it passed, so
`succs[0]` is live. -/
def insert : Chain K V → K → V → Bool × Chain K V
  | [], k, v => (true, [⟨k, {v}, false⟩])
  | n :: rest, k, v =>
    if n.marked then insert rest k v
    else if n.key < k then
      let r := insert rest k v
      (r.1, n :: r.2)
    else if n.key = k then
      (decide (v ∉ n.values), { n with values := Insert.insert v n.values } :: rest)
    else (true, ⟨k, {v}, false⟩ :: n :: rest)

/-- `LockFreeSkipList::remove` (lines 189-205): run `find`; if no live
node with the key exists return `false`; otherwise CAS the mark bit into
every forward pointer of `node_to_delete` from its top level down to
level 0 (sequentially each CAS succeeds at once) and return `true`.
Marking every level of the node is recorded as `marked := true`. -/
def remove : Chain K V → K → Bool × Chain K V
  | [], _ => (false, [])
  | n :: rest, k =>
    if n.marked then remove rest k
    else if n.key < k then
      let r := remove rest k
      (r.1, n :: r.2)
    else if n.key = k then (true, { n with marked := true } :: rest)
    else (false, n :: rest)

/-- The live (not logically deleted) nodes of a chain, in order. -/
def live (s : Chain K V) : Chain K V := s.filter (fun n => n.marked = false)

/-- The keys encountered along level 0, skipping marked nodes. -/
def liveKeys (s : Chain K V) : List K := (live s).map Node.key

/-- All keys along level 0, marked nodes included. -/
def allKeys (s : Chain K V) : List K := s.map Node.key

/-- Strict sortedness of the whole level-0 chain (marked nodes included);
the structural invariant of the sequential skip list. -/
def keysSorted (s : Chain K V) : Prop := List.Pairwise (· < ·) (allKeys s)

/-- What a search would return, computed on a node list without side
effects: walk to the first node with key `≥ k` and return its values if
its key is exactly `k`. -/
def searchPure : List (Node K V) → K → Finset V
  | [], _ => ∅
  | n :: rest, k =>
    if n.key < k then searchPure rest k
    else if n.key = k then n.values else ∅

/-- A client operation on the skip list. -/
inductive Op (K V : Type) where
  | put (k : K) (v : V)
  | del (k : K)
  | get (k : K)
  deriving DecidableEq

/-- State reached after one operation (the state component of the
corresponding member function). -/
def applyOp (s : Chain K V) : Op K V → Chain K V
  | .put k v => (insert s k v).2
  | .del k => (remove s k).2
  | .get k => (search s k).2

/-- State reached from the empty (freshly constructed) skip list after a
sequence of operations. -/
def run (ops : List (Op K V)) : Chain K V := ops.foldl applyOp []

/-- No live node of the chain holds key `k`. -/
def noLive (s : Chain K V) (k : K) : Prop := ∀ n ∈ s, n.key = k → n.marked = true

end SL

/- -------------------------------------------------------------------
   Concurrent B+ Tree  (src/index/b_tree/concurrent_bplus_tree.hpp)

   `BPlusTree<K, V, ORDER>` with
     MAX_KEYS_LEAF     = ORDER
     MAX_KEYS_INTERNAL = ORDER - 1.
   A `Node` is either a leaf (parallel `keys` / `values` vectors, embedded
   as one list of pairs kept in lockstep exactly as the code keeps them)
   or an internal node (separator `keys` and `children`, child `c_i`
   covering keys in `[k_(i-1), k_i)`).  Leaves carry a `next` pointer; the
   chain it forms always threads the leaves in left-to-right (in-order)
   position, because `split_leaf` links the new sibling directly after the
   split leaf (lines 378-380), exactly where the parent places the sibling
   in `children` (line 302 / 350) — so the embedding represents the chain
   as the in-order list of leaves.

   `ORDER` is the parameter `M` below.  Sequentially, every lock and the
   tree latch are uncontended, the early root validations always succeed,
   and `pessimistic_insert`'s recursive insertion from the deepest safe
   node produces the same tree as recursing from the root (the released
   ancestors are precisely the nodes no split can reach), which is how
   `insRec` embeds it.  The `else` branch of the split handling (line
   298-303) is unreachable sequentially: a split can only bubble out of
   `start_node` when `start_node` is the unsafe root.
   ------------------------------------------------------------------- -/

namespace BPT

/-- A B+ tree node. -/
inductive Tree (K V : Type) where
  | leaf (es : List (K × Finset V))
  | node (ks : List K) (cs : List (Tree K V))

variable {K V : Type} [LinearOrder K] [DecidableEq V]

/-- Index returned by `std::upper_bound(keys.begin(), keys.end(), key)` on
a sorted vector: the length of the maximal prefix of keys `≤ key` (the
first position whose key is `> key`). -/
def upperIdx (ks : List K) (k : K) : ℕ :=
  (ks.takeWhile (fun x => decide (x ≤ k))).length

/-- Index returned by `std::lower_bound(keys.begin(), keys.end(), key)` on
a sorted vector: the length of the maximal prefix of keys `< key` (the
first position whose key is `≥ key`). -/
def lowerIdx (ks : List K) (k : K) : ℕ :=
  (ks.takeWhile (fun x => decide (x < k))).length

/-- The leaf-update step shared verbatim by `BPlusTree::insert_into_leaf`
(lines 321-331) and the safe path of `optimistic_insert` (lines 230-238):
`pos = lower_bound(keys, key)`; if `keys[pos] == key` insert the value
into `values[pos]`, otherwise insert `key` at `pos` in `keys` and the
singleton `{value}` at `pos` in `values`. -/
def insLeaf (es : List (K × Finset V)) (k : K) (v : V) : List (K × Finset V) :=
  let pos := lowerIdx (es.map Prod.fst) k
  match es[pos]? with
  | some e =>
    if e.1 = k then es.set pos (k, Insert.insert v e.2)
    else es.insertIdx pos (k, {v})
  | none => es.insertIdx pos (k, {v})

/-- Recursive restatement of `insLeaf` used in proofs: walk past entries
with key `< k`; update in place on an exact hit; otherwise insert before
the first entry with key `> k` (`insLeaf_eq_insEs` shows the two agree on
every input). -/
def insEs : List (K × Finset V) → K → V → List (K × Finset V)
  | [], k, v => [(k, {v})]
  | e :: es, k, v =>
    if e.1 < k then e :: insEs es k v
    else if e.1 = k then (k, Insert.insert v e.2) :: es
    else (k, {v}) :: e :: es

/-- `BPlusTree::insert_recursive` together with `insert_into_leaf`,
`insert_into_internal`, `split_leaf` and `split_internal` (lines 313-412):
descend by `upper_bound`, update the leaf, and on overflow split, handing
`some (sibling, promoted_key)` up to the caller.
Leaf split (lines 361-387): `mid = size/2`; the sibling takes
`keys[mid..]` / `values[mid..]`; the promoted key is the sibling's first
key (copy-up).  Internal split (lines 389-412): `mid = size/2`;
`promoted = keys[mid]` (move-up); the sibling takes `keys[mid+1..]` and
`children[mid+1..]`. -/
def insRec (M : ℕ) : Tree K V → K → V → Tree K V × Option (Tree K V × K)
  | .leaf es, k, v =>
    let es' := insLeaf es k v
    if es'.length > M then
      match es'.drop (es'.length / 2) with
      | [] => (.leaf es', none)
      | e :: tl =>
        (.leaf (es'.take (es'.length / 2)), some (.leaf (e :: tl), e.1))
    else (.leaf es', none)
  | .node ks cs, k, v =>
    match hc : cs[upperIdx ks k]? with
    | none => (.node ks cs, none)
    | some c =>
      let r := insRec M c k v
      let cs1 := cs.set (upperIdx ks k) r.1
      match r.2 with
      | none => (.node ks cs1, none)
      | some (sib, pk) =>
        let ks2 := ks.insertIdx (upperIdx ks k) pk
        let cs2 := cs1.insertIdx (upperIdx ks k + 1) sib
        if ks2.length > M - 1 then
          match ks2[ks2.length / 2]? with
          | none => (.node ks2 cs2, none)
          | some pk2 =>
            (.node (ks2.take (ks2.length / 2)) (cs2.take (ks2.length / 2 + 1)),
              some (.node (ks2.drop (ks2.length / 2 + 1)) (cs2.drop (ks2.length / 2 + 1)), pk2))
        else (.node ks2 cs2, none)
  termination_by t => sizeOf t
  decreasing_by
    have hm : c ∈ cs := List.getElem?_mem hc
    have := List.sizeOf_lt_of_mem hm
    simp only [Tree.node.sizeOf_spec]
    omega

/-- `BPlusTree::pessimistic_insert` (lines 244-310), sequential residue:
recursive insertion from the root; on a root split, build the new root
holding the promoted key over the old root and the sibling (lines
288-297) and publish it. -/
def insTree (M : ℕ) (t : Tree K V) (k : K) (v : V) : Tree K V :=
  match insRec M t k v with
  | (t', none) => t'
  | (t', some (sib, pk)) => .node [pk] [t', sib]

/-- `BPlusTree::optimistic_insert` (lines 182-242): lock-couple down with
shared locks, take the leaf exclusively, and test
`is_safe_for_insert` ≡ `keys.size() < MAX_KEYS_LEAF`; if safe, perform
the leaf update and succeed, otherwise return failure having mutated
nothing. -/
def optIns (M : ℕ) : Tree K V → K → V → Bool × Tree K V
  | .leaf es, k, v =>
    if es.length < M then (true, .leaf (insLeaf es k v))
    else (false, .leaf es)
  | .node ks cs, k, v =>
    match hc : cs[upperIdx ks k]? with
    | none => (false, .node ks cs)
    | some c =>
      let r := optIns M c k v
      if r.1 then (true, .node ks (cs.set (upperIdx ks k) r.2))
      else (false, .node ks cs)
  termination_by t => sizeOf t
  decreasing_by
    have hm : c ∈ cs := List.getElem?_mem hc
    have := List.sizeOf_lt_of_mem hm
    simp only [Tree.node.sizeOf_spec]
    omega

/-- `BPlusTree::insert` (lines 69-73): try the optimistic insert; on
failure fall back to the pessimistic insert; return `true` in both
cases. -/
def insert (M : ℕ) (t : Tree K V) (k : K) (v : V) : Tree K V × Bool :=
  match optIns M t k v with
  | (true, t') => (t', true)
  | (false, _) => (insTree M t k v, true)

/-- `BPlusTree::search` (lines 75-112): descend by `upper_bound` with
lock coupling; at the leaf, `lower_bound`; return a copy of
`values[idx]` when `keys[idx] == key`, else the empty set. -/
def search : Tree K V → K → Finset V
  | .leaf es, k =>
    match es[lowerIdx (es.map Prod.fst) k]? with
    | some e => if e.1 = k then e.2 else ∅
    | none => ∅
  | .node ks cs, k =>
    match hc : cs[upperIdx ks k]? with
    | some c => search c k
    | none => ∅
  termination_by t => sizeOf t
  decreasing_by
    have hm : c ∈ cs := List.getElem?_mem hc
    have := List.sizeOf_lt_of_mem hm
    simp only [Tree.node.sizeOf_spec]
    omega

/-- All (key, value-set) entries of the tree in symmetric (left-to-right)
order; the abstract contents. -/
def toList : Tree K V → List (K × Finset V)
  | .leaf es => es
  | .node _ [] => []
  | .node ks (c :: cs) => toList c ++ toList (.node ks cs)
  termination_by t => sizeOf t
  decreasing_by
    all_goals simp only [Tree.node.sizeOf_spec, List.cons.sizeOf_spec]
    all_goals omega

/-- The leaves of the tree in left-to-right order — the leaf `next` chain
(see the header comment of this namespace). -/
def leaves : Tree K V → List (List (K × Finset V))
  | .leaf es => [es]
  | .node _ [] => []
  | .node ks (c :: cs) => leaves c ++ leaves (.node ks cs)
  termination_by t => sizeOf t
  decreasing_by
    all_goals simp only [Tree.node.sizeOf_spec, List.cons.sizeOf_spec]
    all_goals omega

/-- The suffix of the leaf chain from the leaf reached by the
`range_search` descent (`upper_bound(start_key)` at each internal node,
lines 133-145): the reached leaf, the rest of its subtree's leaves, and
the leaves of the right siblings along the descent path, i.e. everything
the `next` chain visits from the reached leaf on. -/
def chainFrom : Tree K V → K → List (List (K × Finset V))
  | .leaf es, _ => [es]
  | .node ks cs, k =>
    match hc : cs[upperIdx ks k]? with
    | none => []
    | some c => chainFrom c k ++ (cs.drop (upperIdx ks k + 1)).flatMap leaves
  termination_by t => sizeOf t
  decreasing_by
    have hm : c ∈ cs := List.getElem?_mem hc
    have := List.sizeOf_lt_of_mem hm
    simp only [Tree.node.sizeOf_spec]
    omega

/-- The `for` loop of `range_search` over one leaf (lines 154-160): scan
entries in order, stop (setting `done`) at the first key `≥ end_key`,
collect the rest.  Returns the collected entries and the `done` flag. -/
def takeUntil (hi : K) : List (K × Finset V) → List (K × Finset V) × Bool
  | [] => ([], false)
  | e :: es =>
    if e.1 ≥ hi then ([], true)
    else
      let r := takeUntil hi es
      (e :: r.1, r.2)

/-- The leaf-chain loop of `range_search` (lines 147-176): on each leaf,
start at `lower_bound(start_key)`, scan until `done` or the leaf ends,
then follow `next`; stop when `done` or the chain ends. -/
def scanChain (lo hi : K) : List (List (K × Finset V)) → List (K × Finset V)
  | [] => []
  | es :: rest =>
    let r := takeUntil hi (es.drop (lowerIdx (es.map Prod.fst) lo))
    if r.2 then r.1 else r.1 ++ scanChain lo hi rest

/-- `BPlusTree::range_search` (lines 114-179): empty if
`start_key ≥ end_key`; otherwise descend to the leaf and scan the chain.
The result `std::map<K, Set<V>>` is represented by its ascending entry
list (the scan emplaces strictly ascending, pairwise distinct keys, so
the map's entries are exactly the emplaced list in order). -/
def rangeSearch (t : Tree K V) (lo hi : K) : List (K × Finset V) :=
  if lo ≥ hi then [] else scanChain lo hi (chainFrom t lo)

/-- The leaf that the `upper_bound` descent of `optimistic_insert` /
`search` reaches for a key (`none` only on malformed children arrays). -/
def reachLeaf : Tree K V → K → Option (List (K × Finset V))
  | .leaf es, _ => some es
  | .node ks cs, k =>
    match hc : cs[upperIdx ks k]? with
    | some c => reachLeaf c k
    | none => none
  termination_by t => sizeOf t
  decreasing_by
    have hm : c ∈ cs := List.getElem?_mem hc
    have := List.sizeOf_lt_of_mem hm
    simp only [Tree.node.sizeOf_spec]
    omega

/-- Number of leaf splits a single `insert` causes: the descent touches
exactly one leaf, which splits iff it overflows after the update. -/
def leafSplits (M : ℕ) : Tree K V → K → V → ℕ
  | .leaf es, k, v => if (insLeaf es k v).length > M then 1 else 0
  | .node ks cs, k, v =>
    match hc : cs[upperIdx ks k]? with
    | some c => leafSplits M c k v
    | none => 0
  termination_by t => sizeOf t
  decreasing_by
    have hm : c ∈ cs := List.getElem?_mem hc
    have := List.sizeOf_lt_of_mem hm
    simp only [Tree.node.sizeOf_spec]
    omega

/-- Total number of leaf splits over a trace of inserts. -/
def traceLeafSplits (M : ℕ) : Tree K V → List (K × V) → ℕ
  | _, [] => 0
  | t, p :: rest =>
    leafSplits M t p.1 p.2 + traceLeafSplits M (insert M t p.1 p.2).1 rest

/-- Whether the root node is a leaf. -/
def isLeaf : Tree K V → Bool
  | .leaf _ => true
  | .node _ _ => false

/-- The key vector of the root node. -/
def topKeys : Tree K V → List K
  | .leaf es => es.map Prod.fst
  | .node ks _ => ks

/-- The key vectors of the root's children (empty list entry for a
non-leaf child). -/
def childKeys : Tree K V → List (List K)
  | .leaf _ => []
  | .node _ cs =>
    cs.map (fun c =>
      match c with
      | .leaf es => es.map Prod.fst
      | .node _ _ => [])

/-- Whether every child of the root is a leaf. -/
def childrenAreLeaves : Tree K V → Bool
  | .leaf _ => false
  | .node _ cs =>
    cs.all (fun c =>
      match c with
      | .leaf _ => true
      | .node _ _ => false)

/-- Lower bound constraint on a key (non-strict: a leaf key may equal the
separator above it, which is a copy of it). -/
def lbOk (lo : Option K) (k : K) : Prop := ∀ l ∈ lo, l ≤ k

/-- Strict lower bound constraint (internal separators are strictly above
their subtree's lower bound). -/
def sbOk (lo : Option K) (k : K) : Prop := ∀ l ∈ lo, l < k

/-- Upper bound constraint on a key (strict: child `c_i` covers
`[k_(i-1), k_i)`). -/
def ubOk (hi : Option K) (k : K) : Prop := ∀ h ∈ hi, k < h

mutual

/-- Structural well-formedness of a subtree within optional key bounds
`(lo, hi)`: key counts within capacity, keys strictly sorted, keys inside
the bounds, and (for internal nodes) children interleaved with the
separators so that child `i` covers `[k_(i-1), k_i)`. -/
inductive WF (M : ℕ) : Option K → Option K → Tree K V → Prop where
  | leaf : ∀ {lo hi : Option K} {es : List (K × Finset V)},
      es.length ≤ M →
      List.Pairwise (· < ·) (es.map Prod.fst) →
      (∀ e ∈ es, lbOk lo e.1 ∧ ubOk hi e.1) →
      WF M lo hi (.leaf es)
  | node : ∀ {lo hi : Option K} {ks : List K} {cs : List (Tree K V)},
      ks.length ≤ M - 1 →
      List.Pairwise (· < ·) ks →
      (∀ x ∈ ks, sbOk lo x ∧ ubOk hi x) →
      WFC M lo ks cs hi →
      WF M lo hi (.node ks cs)

/-- Well-formedness of an interleaved separator/children sequence: with
separators `k₁ … k_m` there are `m+1` children, child `i` well-formed in
`[k_(i-1), k_i)` (with the node's own `lo` and `hi` at the two ends). -/
inductive WFC (M : ℕ) : Option K → List K → List (Tree K V) → Option K → Prop where
  | single : ∀ {lo hi : Option K} {c : Tree K V},
      WF M lo hi c → WFC M lo [] [c] hi
  | cons : ∀ {lo hi : Option K} {x : K} {ks : List K} {c : Tree K V} {cs : List (Tree K V)},
      WF M lo (some x) c → WFC M (some x) ks cs hi →
      WFC M lo (x :: ks) (c :: cs) hi

end

/-- Trees reachable from the freshly constructed tree (a single empty
leaf, line 67) by a sequence of `insert`s. -/
def Built (M : ℕ) (t : Tree K V) : Prop :=
  ∃ l : List (K × V),
    t = l.foldl (fun acc p => (insert M acc p.1 p.2).1) (.leaf [])

/-- First entry with the given key, as `search` must report it. -/
def findE (l : List (K × Finset V)) (k : K) : Finset V :=
  match l.find? (fun e => decide (e.1 = k)) with
  | some e => e.2
  | none => ∅

end BPT

/- ===================================================================
   PART 2: THEOREMS
   =================================================================== -/

/- ------------------- hash index lemmas ------------------- -/

namespace Inv

variable {K V : Type} [DecidableEq K] [DecidableEq V]

theorem search_getOrCreateBucket (m : Map K V) (k : K) :
    ((getOrCreateBucket m k) k).getD ∅ = search m k := by
  unfold getOrCreateBucket search
  cases h : m k with
  | none => simp [h, Function.update_same]
  | some s => simp [h]

theorem getOrCreateBucket_apply_ne (m : Map K V) {k k' : K} (h : k' ≠ k) :
    (getOrCreateBucket m k) k' = m k' := by
  unfold getOrCreateBucket
  cases hm : m k with
  | none => simp [Function.update_noteq h]
  | some s => rfl

theorem insert_fst_apply (m : Map K V) (k : K) (v : V) :
    (insert m k v).1 k = some (Insert.insert v (search m k)) := by
  show Function.update (getOrCreateBucket m k) k
      (some (Insert.insert v ((getOrCreateBucket m k k).getD ∅))) k = _
  rw [Function.update_same, search_getOrCreateBucket]

theorem insert_fst_apply_ne (m : Map K V) {k k' : K} (v : V) (h : k' ≠ k) :
    (insert m k v).1 k' = m k' := by
  show Function.update (getOrCreateBucket m k) k
      (some (Insert.insert v ((getOrCreateBucket m k k).getD ∅))) k' = _
  rw [Function.update_noteq h, getOrCreateBucket_apply_ne m h]

theorem insert_snd (m : Map K V) (k : K) (v : V) :
    (insert m k v).2 = decide (v ∉ search m k) := by
  show decide (v ∉ ((getOrCreateBucket m k) k).getD ∅) = _
  rw [search_getOrCreateBucket]

theorem search_insert_self (m : Map K V) (k : K) (v : V) :
    search (insert m k v).1 k = Insert.insert v (search m k) := by
  unfold search
  rw [insert_fst_apply]
  rfl

theorem insert_idem (m : Map K V) (k : K) (v : V) :
    (insert (insert m k v).1 k v).1 = (insert m k v).1 := by
  funext k'
  by_cases hk : k' = k
  · subst hk
    rw [insert_fst_apply, insert_fst_apply, search_insert_self, Finset.insert_idem]
  · rw [insert_fst_apply_ne _ _ hk, insert_fst_apply_ne _ _ hk]

end Inv

/-- C2 counterexample: the claimed invariant — every bucket present in a
shard map is non-empty whenever a shard write-lock is released — fails at
the release point inside `getOrCreateBucket`: starting from the empty
index (which satisfies the invariant) and calling get-or-create-bucket
for key 0, the shard map holds the freshly created bucket with the empty
value set at the moment the shard write lock is released (the value is
only inserted afterwards, under the bucket lock, by `insert`). -/
theorem C2_counterexample :
    ¬ (∀ (m : Inv.Map ℕ ℕ) (k : ℕ),
        Inv.shardInv m → Inv.shardInv (Inv.getOrCreateBucket m k)) := by
  intro h
  have hinv : Inv.shardInv (K := ℕ) (V := ℕ) (fun _ => none) := by
    intro k s hs
    cases hs
  have h0 := h (fun _ => none) 0 hinv 0 ∅ (by
    show Inv.getOrCreateBucket (fun _ => none) 0 0 = some ∅
    unfold Inv.getOrCreateBucket
    simp [Function.update_same])
  exact Finset.not_nonempty_empty h0

/-- C2 (amended): the shard-map invariant "no bucket present is empty"
does hold at the write-lock release of `remove(k, v)` (a bucket emptied
by the removal is erased together with its shard entry), at the release
of `remove(k)` and after a completed `insert(k, v)` — but not at the
release inside `getOrCreateBucket`, which publishes the newly created
bucket while it is still empty (see `C2_counterexample`). -/
theorem C2_amended {K V : Type} [DecidableEq K] [DecidableEq V]
    (m : Inv.Map K V) (k : K) (v : V) (h : Inv.shardInv m) :
    Inv.shardInv (Inv.insert m k v).1 ∧ Inv.shardInv (Inv.removeKV m k v).1 ∧
      Inv.shardInv (Inv.removeKey m k).1 := by
  refine ⟨?_, ?_, ?_⟩
  · intro k' s hs
    by_cases hk : k' = k
    · subst hk
      rw [Inv.insert_fst_apply] at hs
      cases hs
      exact Finset.insert_nonempty _ _
    · rw [Inv.insert_fst_apply_ne _ _ hk] at hs
      exact h k' s hs
  · intro k' s hs
    cases hm : m k with
    | none =>
      simp only [Inv.removeKV, hm] at hs
      exact h k' s hs
    | some s0 =>
      simp only [Inv.removeKV, hm] at hs
      by_cases hv : v ∈ s0
      · rw [if_pos hv] at hs
        by_cases he : s0.erase v = ∅
        · rw [if_pos he] at hs
          dsimp only at hs
          by_cases hk : k' = k
          · subst hk; rw [Function.update_same] at hs; cases hs
          · rw [Function.update_noteq hk] at hs; exact h k' s hs
        · rw [if_neg he] at hs
          dsimp only at hs
          by_cases hk : k' = k
          · subst hk
            rw [Function.update_same] at hs
            cases hs
            exact Finset.nonempty_iff_ne_empty.mpr he
          · rw [Function.update_noteq hk] at hs; exact h k' s hs
      · rw [if_neg hv] at hs
        dsimp only at hs
        exact h k' s hs
  · intro k' s hs
    cases hm : m k with
    | none =>
      simp only [Inv.removeKey, hm] at hs
      exact h k' s hs
    | some s0 =>
      simp only [Inv.removeKey, hm] at hs
      by_cases hk : k' = k
      · subst hk; rw [Function.update_same] at hs; cases hs
      · rw [Function.update_noteq hk] at hs; exact h k' s hs

/-- Witness for `C2_amended` at a concrete one-bucket index. -/
theorem C2_witness :
    Inv.shardInv (Inv.insert (Function.update (fun _ => (none : Option (Finset ℕ))) 1 (some {7})) 2 5).1 ∧
      Inv.shardInv (Inv.removeKV (Function.update (fun _ => (none : Option (Finset ℕ))) 1 (some {7})) 2 5).1 ∧
      Inv.shardInv (Inv.removeKey (Function.update (fun _ => (none : Option (Finset ℕ))) 1 (some {7})) 2).1 :=
  C2_amended _ 2 5 (by
    intro k s hs
    by_cases hk : k = 1
    · subst hk
      rw [Function.update_same] at hs
      cases hs
      exact ⟨7, by simp⟩
    · rw [Function.update_noteq hk] at hs
      cases hs)

/-- C7: `remove(k, v)` on the sharded hash index returns `true` iff `v`
was present in `k`'s value set at the time of the call; and when the
removal leaves the value set empty (i.e. the set was exactly `{v}`), the
entry for `k` is erased from the shard map, so a subsequent `search(k)`
returns the empty set. -/
theorem C7_remove_value {K V : Type} [DecidableEq K] [DecidableEq V]
    (m : Inv.Map K V) (k : K) (v : V) :
    ((Inv.removeKV m k v).2 = true ↔ v ∈ Inv.search m k) ∧
      (Inv.search m k = {v} →
        (Inv.removeKV m k v).1 k = none ∧ Inv.search (Inv.removeKV m k v).1 k = ∅) := by
  cases hm : m k with
  | none =>
    constructor
    · simp [Inv.removeKV, Inv.search, hm]
    · intro hs
      simp only [Inv.search, hm, Option.getD_none] at hs
      exact absurd hs.symm (Finset.singleton_ne_empty v)
  | some s =>
    constructor
    · by_cases hv : v ∈ s
      · simp [Inv.removeKV, Inv.search, hm, hv]
      · simp [Inv.removeKV, Inv.search, hm, hv]
    · intro hs
      simp only [Inv.search, hm, Option.getD_some] at hs
      subst hs
      have hv : v ∈ ({v} : Finset V) := Finset.mem_singleton_self v
      have hrm : (Inv.removeKV m k v).1 = Function.update m k none := by
        simp only [Inv.removeKV, hm]
        rw [if_pos hv, if_pos (Finset.erase_singleton v)]
      rw [hrm]
      constructor
      · exact Function.update_same k none m
      · unfold Inv.search
        rw [Function.update_same]
        rfl

/- ------------------- skip list lemmas ------------------- -/

namespace SL

variable {K V : Type} [LinearOrder K] [DecidableEq V]

theorem find_cons_marked {n : Node K V} (h : n.marked = true) (rest : Chain K V) (k : K) :
    find (n :: rest) k = find rest k := by
  simp [find, h]

theorem find_cons_lt {n : Node K V} (hm : n.marked = false) {k : K} (hlt : n.key < k)
    (rest : Chain K V) :
    find (n :: rest) k = ((find rest k).1, n :: (find rest k).2) := by
  simp [find, hm, hlt]

theorem find_cons_ge {n : Node K V} (hm : n.marked = false) {k : K} (hge : ¬ n.key < k)
    (rest : Chain K V) :
    find (n :: rest) k = (some n, n :: rest) := by
  simp [find, hm, hge]

theorem insert_cons_marked {n : Node K V} (h : n.marked = true) (rest : Chain K V) (k : K) (v : V) :
    insert (n :: rest) k v = insert rest k v := by
  simp [insert, h]

theorem insert_cons_lt {n : Node K V} (hm : n.marked = false) {k : K} (hlt : n.key < k)
    (rest : Chain K V) (v : V) :
    insert (n :: rest) k v = ((insert rest k v).1, n :: (insert rest k v).2) := by
  simp [insert, hm, hlt]

theorem insert_cons_eq {n : Node K V} (hm : n.marked = false) {k : K} (heq : n.key = k)
    (rest : Chain K V) (v : V) :
    insert (n :: rest) k v =
      (decide (v ∉ n.values), { n with values := Insert.insert v n.values } :: rest) := by
  have hlt : ¬ n.key < k := by rw [heq]; exact lt_irrefl k
  simp [insert, hm, hlt, heq]

theorem insert_cons_gt {n : Node K V} (hm : n.marked = false) {k : K} (hgt : k < n.key)
    (rest : Chain K V) (v : V) :
    insert (n :: rest) k v = (true, ⟨k, {v}, false⟩ :: n :: rest) := by
  have hlt : ¬ n.key < k := not_lt_of_gt hgt
  have hne : ¬ n.key = k := ne_of_gt hgt
  simp [insert, hm, hlt, hne]

theorem remove_cons_marked {n : Node K V} (h : n.marked = true) (rest : Chain K V) (k : K) :
    remove (n :: rest) k = remove rest k := by
  simp [remove, h]

theorem remove_cons_lt {n : Node K V} (hm : n.marked = false) {k : K} (hlt : n.key < k)
    (rest : Chain K V) :
    remove (n :: rest) k = ((remove rest k).1, n :: (remove rest k).2) := by
  simp [remove, hm, hlt]

theorem remove_cons_eq {n : Node K V} (hm : n.marked = false) {k : K} (heq : n.key = k)
    (rest : Chain K V) :
    remove (n :: rest) k = (true, { n with marked := true } :: rest) := by
  have hlt : ¬ n.key < k := by rw [heq]; exact lt_irrefl k
  simp [remove, hm, hlt, heq]

theorem remove_cons_gt {n : Node K V} (hm : n.marked = false) {k : K} (hgt : k < n.key)
    (rest : Chain K V) :
    remove (n :: rest) k = (false, n :: rest) := by
  have hlt : ¬ n.key < k := not_lt_of_gt hgt
  have hne : ¬ n.key = k := ne_of_gt hgt
  simp [remove, hm, hlt, hne]

theorem live_cons_marked {n : Node K V} (h : n.marked = true) (rest : Chain K V) :
    live (n :: rest) = live rest := by
  simp [live, List.filter_cons, h]

theorem live_cons_live {n : Node K V} (h : n.marked = false) (rest : Chain K V) :
    live (n :: rest) = n :: live rest := by
  simp [live, List.filter_cons, h]

/-- The unlinking performed by `find` removes only logically deleted
nodes: the live sublist is untouched. -/
theorem find_live (s : Chain K V) (k : K) : live (find s k).2 = live s := by
  induction s with
  | nil => rfl
  | cons n rest ih =>
    by_cases hm : n.marked = true
    · rw [find_cons_marked hm, live_cons_marked hm, ih]
    · have hm' : n.marked = false := by revert hm; cases n.marked <;> simp
      by_cases hlt : n.key < k
      · rw [find_cons_lt hm' hlt, live_cons_live hm', live_cons_live hm', ih]
      · rw [find_cons_ge hm' hlt]

/-- `find` only drops nodes from the chain. -/
theorem find_sublist (s : Chain K V) (k : K) : List.Sublist (find s k).2 s := by
  induction s with
  | nil => simp [find]
  | cons n rest ih =>
    by_cases hm : n.marked = true
    · rw [find_cons_marked hm]
      exact ih.trans (List.sublist_cons_self n rest)
    · have hm' : n.marked = false := by revert hm; cases n.marked <;> simp
      by_cases hlt : n.key < k
      · rw [find_cons_lt hm' hlt]
        exact List.Sublist.cons₂ n ih
      · rw [find_cons_ge hm' hlt]

theorem search_snd (s : Chain K V) (k : K) : (search s k).2 = (find s k).2 := by
  unfold search
  rcases hf : find s k with ⟨r1, s'⟩
  cases r1 with
  | none => rfl
  | some n =>
    by_cases hc : n.key = k ∧ n.marked = false
    · simp [hc]
    · simp [hc]

/-- What `search` returns is determined by the live sublist alone. -/
theorem search_fst (s : Chain K V) (k : K) : (search s k).1 = searchPure (live s) k := by
  induction s with
  | nil => rfl
  | cons n rest ih =>
    by_cases hm : n.marked = true
    · have : search (n :: rest) k = search rest k := by
        unfold search
        rw [find_cons_marked hm]
      rw [this, live_cons_marked hm, ih]
    · have hm' : n.marked = false := by revert hm; cases n.marked <;> simp
      by_cases hlt : n.key < k
      · have : (search (n :: rest) k).1 = (search rest k).1 := by
          unfold search
          rw [find_cons_lt hm' hlt]
          rcases hf : find rest k with ⟨r1, s'⟩
          cases r1 with
          | none => rfl
          | some n' =>
            by_cases hc : n'.key = k ∧ n'.marked = false
            · simp [hc]
            · simp [hc]
        rw [this, live_cons_live hm', ih]
        simp [searchPure, hlt]
      · unfold search
        rw [find_cons_ge hm' hlt, live_cons_live hm']
        by_cases heq : n.key = k
        · simp [searchPure, hlt, heq, hm']
        · simp [searchPure, hlt, heq]

/-- C1, skip-list part: `insert` returns `true` exactly when it adds
something new (a node for an absent key, or a value absent from a present
key's set). -/
theorem insert_fst (s : Chain K V) (k : K) (v : V) :
    (insert s k v).1 = decide (v ∉ (search s k).1) := by
  induction s with
  | nil => simp [insert, search, find, searchPure]
  | cons n rest ih =>
    by_cases hm : n.marked = true
    · have hse : (search (n :: rest) k).1 = (search rest k).1 := by
        unfold search
        rw [find_cons_marked hm]
      rw [insert_cons_marked hm, hse, ih]
    · have hm' : n.marked = false := by revert hm; cases n.marked <;> simp
      by_cases hlt : n.key < k
      · have hse : (search (n :: rest) k).1 = (search rest k).1 := by
          rw [search_fst, search_fst, live_cons_live hm']
          simp [searchPure, hlt]
        rw [insert_cons_lt hm' hlt, hse]
        exact ih
      · by_cases heq : n.key = k
        · rw [insert_cons_eq hm' heq]
          have hse : (search (n :: rest) k).1 = n.values := by
            unfold search
            rw [find_cons_ge hm' hlt]
            simp [heq, hm']
          rw [hse]
        · rw [insert_cons_gt hm' (lt_of_le_of_ne (not_lt.mp hlt) (Ne.symm heq))]
          have hse : (search (n :: rest) k).1 = ∅ := by
            unfold search
            rw [find_cons_ge hm' hlt]
            simp [heq]
          rw [hse]
          simp

/-- C9, skip-list part (state form): a second `insert` of the same
key/value pair returns the very same chain. -/
theorem insert_idem_state (s : Chain K V) (k : K) (v : V) :
    (insert (insert s k v).2 k v).2 = (insert s k v).2 := by
  induction s with
  | nil =>
    show (insert [⟨k, {v}, false⟩] k v).2 = [⟨k, {v}, false⟩]
    rw [insert_cons_eq (n := ⟨k, {v}, false⟩) rfl rfl]
    simp
  | cons n rest ih =>
    by_cases hm : n.marked = true
    · rw [insert_cons_marked hm]
      exact ih
    · have hm' : n.marked = false := by revert hm; cases n.marked <;> simp
      by_cases hlt : n.key < k
      · rw [insert_cons_lt hm' hlt]
        show (insert (n :: (insert rest k v).2) k v).2 = _
        rw [insert_cons_lt hm' hlt]
        simp only [ih]
      · by_cases heq : n.key = k
        · rw [insert_cons_eq hm' heq]
          show (insert ({ n with values := Insert.insert v n.values } :: rest) k v).2 = _
          rw [insert_cons_eq (n := { n with values := Insert.insert v n.values }) hm' heq]
          simp [Finset.insert_idem]
        · rw [insert_cons_gt hm' (lt_of_le_of_ne (not_lt.mp hlt) (Ne.symm heq))]
          show (insert (⟨k, {v}, false⟩ :: n :: rest) k v).2 = _
          rw [insert_cons_eq (n := ⟨k, {v}, false⟩) rfl rfl]
          simp

theorem insert_shape (s : Chain K V) (k : K) (v : V) :
    ∀ m ∈ (insert s k v).2, m.key = k ∨ m ∈ s := by
  induction s with
  | nil =>
    intro m hm
    rw [show (insert ([] : Chain K V) k v).2 = [⟨k, {v}, false⟩] from rfl] at hm
    rcases List.mem_singleton.mp hm with rfl
    exact Or.inl rfl
  | cons n rest ih =>
    intro m hm
    by_cases hmk : n.marked = true
    · rw [insert_cons_marked hmk] at hm
      rcases ih m hm with h | h
      · exact Or.inl h
      · exact Or.inr (List.mem_cons_of_mem n h)
    · have hm' : n.marked = false := by revert hmk; cases n.marked <;> simp
      by_cases hlt : n.key < k
      · rw [insert_cons_lt hm' hlt] at hm
        rcases List.mem_cons.mp hm with rfl | h
        · exact Or.inr (List.mem_cons_self _ _)
        · rcases ih m h with h2 | h2
          · exact Or.inl h2
          · exact Or.inr (List.mem_cons_of_mem n h2)
      · by_cases heq : n.key = k
        · rw [insert_cons_eq hm' heq] at hm
          rcases List.mem_cons.mp hm with rfl | h
          · exact Or.inl heq
          · exact Or.inr (List.mem_cons_of_mem n h)
        · rw [insert_cons_gt hm' (lt_of_le_of_ne (not_lt.mp hlt) (Ne.symm heq))] at hm
          rcases List.mem_cons.mp hm with rfl | h
          · exact Or.inl rfl
          · exact Or.inr h

theorem insert_sorted (s : Chain K V) (k : K) (v : V) (h : keysSorted s) :
    keysSorted (insert s k v).2 := by
  induction s with
  | nil =>
    rw [show (insert ([] : Chain K V) k v).2 = [⟨k, {v}, false⟩] from rfl]
    exact List.pairwise_singleton _ _
  | cons n rest ih =>
    have hrest : keysSorted rest := (List.pairwise_cons.mp h).2
    have hhead : ∀ m ∈ rest, n.key < m.key := by
      intro m hm
      exact (List.pairwise_cons.mp h).1 m.key (List.mem_map_of_mem Node.key hm)
    by_cases hmk : n.marked = true
    · rw [keysSorted, allKeys, insert_cons_marked hmk]
      exact ih hrest
    · have hm' : n.marked = false := by revert hmk; cases n.marked <;> simp
      by_cases hlt : n.key < k
      · rw [keysSorted, allKeys, insert_cons_lt hm' hlt]
        rw [List.map_cons, List.pairwise_cons]
        constructor
        · intro y hy
          rcases List.mem_map.mp hy with ⟨m, hmm, rfl⟩
          rcases insert_shape rest k v m hmm with h2 | h2
          · rw [h2]; exact hlt
          · exact hhead m h2
        · exact ih hrest
      · by_cases heq : n.key = k
        · rw [keysSorted, allKeys, insert_cons_eq hm' heq]
          rw [List.map_cons, List.pairwise_cons]
          exact ⟨fun y hy => (List.pairwise_cons.mp h).1 y hy, hrest⟩
        · have hgt : k < n.key := lt_of_le_of_ne (not_lt.mp hlt) (Ne.symm heq)
          rw [keysSorted, allKeys, insert_cons_gt hm' hgt]
          rw [List.map_cons, List.map_cons, List.pairwise_cons]
          constructor
          · intro y hy
            rcases List.mem_cons.mp hy with rfl | hy2
            · exact hgt
            · rcases List.mem_map.mp hy2 with ⟨m, hmm, rfl⟩
              exact hgt.trans (hhead m hmm)
          · exact h

theorem remove_shape (s : Chain K V) (k : K) :
    ∀ m ∈ (remove s k).2, m ∈ s ∨ m.marked = true := by
  induction s with
  | nil => intro m hm; cases hm
  | cons n rest ih =>
    intro m hm
    by_cases hmk : n.marked = true
    · rw [remove_cons_marked hmk] at hm
      rcases ih m hm with h | h
      · exact Or.inl (List.mem_cons_of_mem n h)
      · exact Or.inr h
    · have hm' : n.marked = false := by revert hmk; cases n.marked <;> simp
      by_cases hlt : n.key < k
      · rw [remove_cons_lt hm' hlt] at hm
        rcases List.mem_cons.mp hm with rfl | h
        · exact Or.inl (List.mem_cons_self _ _)
        · rcases ih m h with h2 | h2
          · exact Or.inl (List.mem_cons_of_mem n h2)
          · exact Or.inr h2
      · by_cases heq : n.key = k
        · rw [remove_cons_eq hm' heq] at hm
          rcases List.mem_cons.mp hm with rfl | h
          · exact Or.inr rfl
          · exact Or.inl (List.mem_cons_of_mem n h)
        · rw [remove_cons_gt hm' (lt_of_le_of_ne (not_lt.mp hlt) (Ne.symm heq))] at hm
          exact Or.inl hm

theorem remove_keys_sublist (s : Chain K V) (k : K) :
    List.Sublist (allKeys (remove s k).2) (allKeys s) := by
  induction s with
  | nil => simp [remove, allKeys]
  | cons n rest ih =>
    by_cases hmk : n.marked = true
    · simp only [allKeys, List.map_cons]
      rw [remove_cons_marked hmk]
      exact ih.trans (List.sublist_cons_self n.key _)
    · have hm' : n.marked = false := by revert hmk; cases n.marked <;> simp
      by_cases hlt : n.key < k
      · simp only [allKeys, List.map_cons]
        rw [remove_cons_lt hm' hlt]
        rw [List.map_cons]
        exact List.Sublist.cons₂ n.key ih
      · by_cases heq : n.key = k
        · simp only [allKeys]
          rw [remove_cons_eq hm' heq]
          exact List.Sublist.refl _
        · simp only [allKeys]
          rw [remove_cons_gt hm' (lt_of_le_of_ne (not_lt.mp hlt) (Ne.symm heq))]

theorem remove_sorted (s : Chain K V) (k : K) (h : keysSorted s) :
    keysSorted (remove s k).2 :=
  List.Pairwise.sublist (remove_keys_sublist s k) h

theorem search_sorted (s : Chain K V) (k : K) (h : keysSorted s) :
    keysSorted (search s k).2 := by
  rw [keysSorted, allKeys, search_snd]
  exact List.Pairwise.sublist ((find_sublist s k).map Node.key) h

theorem applyOp_sorted (s : Chain K V) (op : Op K V) (h : keysSorted s) :
    keysSorted (applyOp s op) := by
  cases op with
  | put k v => exact insert_sorted s k v h
  | del k => exact remove_sorted s k h
  | get k => exact search_sorted s k h

theorem foldl_sorted (ops : List (Op K V)) (s : Chain K V) (h : keysSorted s) :
    keysSorted (ops.foldl applyOp s) := by
  induction ops generalizing s with
  | nil => exact h
  | cons op rest ih => exact ih (applyOp s op) (applyOp_sorted s op h)

/-- Every state reachable from the fresh skip list has a strictly sorted
level-0 chain (marked nodes included). -/
theorem run_sorted (ops : List (Op K V)) : keysSorted (run ops) :=
  foldl_sorted ops [] List.Pairwise.nil

theorem remove_true_noLive (s : Chain K V) (k : K) (hs : keysSorted s)
    (hr : (remove s k).1 = true) : noLive (remove s k).2 k := by
  induction s with
  | nil => cases hr
  | cons n rest ih =>
    have hrest : keysSorted rest := (List.pairwise_cons.mp hs).2
    have hhead : ∀ m ∈ rest, n.key < m.key := by
      intro m hm
      exact (List.pairwise_cons.mp hs).1 m.key (List.mem_map_of_mem Node.key hm)
    by_cases hmk : n.marked = true
    · rw [remove_cons_marked hmk] at hr ⊢
      exact ih hrest hr
    · have hm' : n.marked = false := by revert hmk; cases n.marked <;> simp
      by_cases hlt : n.key < k
      · rw [remove_cons_lt hm' hlt] at hr ⊢
        intro m hm hkey
        rcases List.mem_cons.mp hm with rfl | h2
        · exact absurd hkey (ne_of_lt hlt)
        · exact ih hrest hr m h2 hkey
      · by_cases heq : n.key = k
        · rw [remove_cons_eq hm' heq]
          intro m hm hkey
          rcases List.mem_cons.mp hm with rfl | h2
          · rfl
          · exact absurd hkey (ne_of_gt (heq ▸ hhead m h2))
        · rw [remove_cons_gt hm' (lt_of_le_of_ne (not_lt.mp hlt) (Ne.symm heq))] at hr
          cases hr

theorem noLive_insert {s : Chain K V} {k k' : K} (v : V) (hne : k' ≠ k)
    (h : noLive s k) : noLive (insert s k' v).2 k := by
  intro m hm hkey
  rcases insert_shape s k' v m hm with h2 | h2
  · exact absurd (h2.symm.trans hkey) hne
  · exact h m h2 hkey

theorem noLive_remove {s : Chain K V} {k : K} (k' : K)
    (h : noLive s k) : noLive (remove s k').2 k := by
  intro m hm hkey
  rcases remove_shape s k' m hm with h2 | h2
  · exact h m h2 hkey
  · exact h2

theorem noLive_search {s : Chain K V} {k : K} (k' : K)
    (h : noLive s k) : noLive (search s k').2 k := by
  intro m hm hkey
  rw [search_snd] at hm
  exact h m ((find_sublist s k').subset hm) hkey

theorem searchPure_of_noKey (l : List (Node K V)) (k : K)
    (h : ∀ n ∈ l, n.key ≠ k) : searchPure l k = ∅ := by
  induction l with
  | nil => rfl
  | cons n rest ih =>
    by_cases hlt : n.key < k
    · rw [show searchPure (n :: rest) k = searchPure rest k by simp [searchPure, hlt]]
      exact ih (fun m hm => h m (List.mem_cons_of_mem n hm))
    · have hne : ¬ n.key = k := h n (List.mem_cons_self n rest)
      simp [searchPure, hlt, hne]

theorem noLive_search_empty (s : Chain K V) (k : K) (h : noLive s k) :
    (search s k).1 = ∅ := by
  rw [search_fst]
  apply searchPure_of_noKey
  intro n hn
  rcases List.mem_filter.mp hn with ⟨hmem, hlive⟩
  intro hkey
  have := h n hmem hkey
  rw [this] at hlive
  cases hlive

theorem foldl_noLive {k : K} (ops : List (Op K V)) (s : Chain K V)
    (h : noLive s k) (hni : ∀ v, Op.put k v ∉ ops) :
    noLive (ops.foldl applyOp s) k := by
  induction ops generalizing s with
  | nil => exact h
  | cons op rest ih =>
    have hni' : ∀ v, Op.put k v ∉ rest := by
      intro v hv
      exact hni v (List.mem_cons_of_mem op hv)
    apply ih (applyOp s op) _ hni'
    cases op with
    | put k' v =>
      have hne : k' ≠ k := by
        intro hk
        subst hk
        exact hni v (List.mem_cons_self _ rest)
      exact noLive_insert v hne h
    | del k' => exact noLive_remove k' h
    | get k' => exact noLive_search k' h

end SL

/-- Witness for `C7_remove_value` at a concrete one-bucket index. -/
theorem C7_witness :
    ((Inv.removeKV (Function.update (fun _ => (none : Option (Finset ℕ))) 0 (some {5})) 0 5).2 = true ↔
        5 ∈ Inv.search (Function.update (fun _ => (none : Option (Finset ℕ))) 0 (some {5})) 0) ∧
      ((Inv.removeKV (Function.update (fun _ => (none : Option (Finset ℕ))) 0 (some {5})) 0 5).1 0 = none ∧
        Inv.search (Inv.removeKV (Function.update (fun _ => (none : Option (Finset ℕ))) 0 (some {5})) 0 5).1 0 = ∅) :=
  ⟨(C7_remove_value _ 0 5).1,
    (C7_remove_value _ 0 5).2 (by
      unfold Inv.search
      rw [Function.update_same]
      rfl)⟩

/-- C5: once `remove(k)` has returned `true` on the lock-free skip list,
every subsequent `search(k)` returns the empty set, provided no
`insert(k, ·)` happens in between (inserts of other keys, removes and
searches may intervene freely).  `keysSorted` is the structural invariant
of the level-0 chain, which every reachable state satisfies
(`SL.run_sorted`). -/
theorem C5_removed_stays_removed {K V : Type} [LinearOrder K] [DecidableEq V]
    (s : SL.Chain K V) (k : K) (ops : List (SL.Op K V))
    (hs : SL.keysSorted s)
    (hrm : (SL.remove s k).1 = true)
    (hni : ∀ v, SL.Op.put k v ∉ ops) :
    (SL.search (ops.foldl SL.applyOp (SL.remove s k).2) k).1 = ∅ := by
  apply SL.noLive_search_empty
  exact SL.foldl_noLive ops (SL.remove s k).2 (SL.remove_true_noLive s k hs hrm) hni

/-- Witness for `C5_removed_stays_removed`: remove key 1 from a singleton
skip list, then search 1, insert key 2, and search 1 again. -/
theorem C5_witness :
    (SL.search (([SL.Op.get 1, SL.Op.put 2 7] : List (SL.Op ℕ ℕ)).foldl SL.applyOp
        (SL.remove [⟨1, {5}, false⟩] 1).2) 1).1 = ∅ :=
  C5_removed_stays_removed [⟨1, {5}, false⟩] 1 [SL.Op.get 1, SL.Op.put 2 7]
    (by simp [SL.keysSorted, SL.allKeys])
    (by rfl)
    (by intro v; simp)

/-- C6: in every state reachable from the fresh lock-free skip list by
insert, remove, and search operations, the keys encountered along level 0
skipping marked nodes are strictly increasing, and in particular no two
live nodes hold the same key. -/
theorem C6_level0_strictly_increasing {K V : Type} [LinearOrder K] [DecidableEq V]
    (ops : List (SL.Op K V)) :
    List.Pairwise (· < ·) (SL.liveKeys (SL.run ops)) ∧ (SL.liveKeys (SL.run ops)).Nodup := by
  have hsorted : SL.keysSorted (SL.run ops) := SL.run_sorted ops
  have hsub : List.Sublist (SL.liveKeys (SL.run ops)) (SL.allKeys (SL.run ops)) :=
    (List.filter_sublist _).map SL.Node.key
  have hp : List.Pairwise (· < ·) (SL.liveKeys (SL.run ops)) :=
    List.Pairwise.sublist hsub hsorted
  exact ⟨hp, hp.imp ne_of_lt⟩

/-- C10: `search(k)` on the lock-free skip list may physically modify the
structure (its traversal unlinks logically deleted nodes), but it never
changes the abstract contents: the live sublist is untouched, so every
subsequent `search(k')` returns exactly what it would have returned
before. -/
theorem C10_search_preserves_contents {K V : Type} [LinearOrder K] [DecidableEq V]
    (s : SL.Chain K V) (k : K) :
    SL.live ((SL.search s k).2) = SL.live s ∧
      ∀ k', (SL.search ((SL.search s k).2) k').1 = (SL.search s k').1 := by
  have h1 : SL.live ((SL.search s k).2) = SL.live s := by
    rw [SL.search_snd]
    exact SL.find_live s k
  refine ⟨h1, fun k' => ?_⟩
  rw [SL.search_fst, SL.search_fst, h1]

/- ------------------- B+ tree lemmas: lists ------------------- -/

namespace BPT

variable {K V : Type} [LinearOrder K] [DecidableEq V]

theorem upperIdx_nil (k : K) : upperIdx ([] : List K) k = 0 := rfl

theorem upperIdx_cons_le {x k : K} (h : x ≤ k) (ks : List K) :
    upperIdx (x :: ks) k = upperIdx ks k + 1 := by
  simp [upperIdx, List.takeWhile_cons, h]

theorem upperIdx_cons_gt {x k : K} (h : ¬ x ≤ k) (ks : List K) :
    upperIdx (x :: ks) k = 0 := by
  simp [upperIdx, List.takeWhile_cons, h]

theorem upperIdx_le_length (ks : List K) (k : K) : upperIdx ks k ≤ ks.length :=
  (List.takeWhile_sublist _).length_le

theorem lowerIdx_nil (k : K) : lowerIdx ([] : List K) k = 0 := rfl

theorem lowerIdx_cons_lt {x k : K} (h : x < k) (ks : List K) :
    lowerIdx (x :: ks) k = lowerIdx ks k + 1 := by
  simp [lowerIdx, List.takeWhile_cons, h]

theorem lowerIdx_cons_ge {x k : K} (h : ¬ x < k) (ks : List K) :
    lowerIdx (x :: ks) k = 0 := by
  simp [lowerIdx, List.takeWhile_cons, h]

/-- `insLeaf` with its position binding unfolded. -/
theorem insLeaf_def (es : List (K × Finset V)) (k : K) (v : V) :
    insLeaf es k v =
      (match es[lowerIdx (es.map Prod.fst) k]? with
       | some e =>
         if e.1 = k then es.set (lowerIdx (es.map Prod.fst) k) (k, Insert.insert v e.2)
         else es.insertIdx (lowerIdx (es.map Prod.fst) k) (k, {v})
       | none => es.insertIdx (lowerIdx (es.map Prod.fst) k) (k, {v})) := rfl

/-- The positional leaf update (`lower_bound`, then set or insert) agrees
with its recursive restatement on every input. -/
theorem insLeaf_eq_insEs (es : List (K × Finset V)) (k : K) (v : V) :
    insLeaf es k v = insEs es k v := by
  induction es with
  | nil =>
    simp [insLeaf, insEs, lowerIdx, List.insertIdx_zero]
  | cons e es ih =>
    rw [insLeaf_def]
    by_cases hlt : e.1 < k
    · have hpos : lowerIdx ((e :: es).map Prod.fst) k = lowerIdx (es.map Prod.fst) k + 1 := by
        rw [List.map_cons]
        exact lowerIdx_cons_lt hlt _
      rw [hpos, List.getElem?_cons_succ]
      rw [insLeaf_def] at ih
      cases hes : es[lowerIdx (es.map Prod.fst) k]? with
      | none =>
        rw [hes] at ih
        dsimp only at ih ⊢
        rw [List.insertIdx_succ_cons]
        rw [show insEs (e :: es) k v = e :: insEs es k v by simp [insEs, hlt], ← ih]
      | some e' =>
        rw [hes] at ih
        dsimp only at ih ⊢
        by_cases he' : e'.1 = k
        · rw [if_pos he'] at ih
          rw [if_pos he', List.set_cons_succ]
          rw [show insEs (e :: es) k v = e :: insEs es k v by simp [insEs, hlt], ← ih]
        · rw [if_neg he'] at ih
          rw [if_neg he', List.insertIdx_succ_cons]
          rw [show insEs (e :: es) k v = e :: insEs es k v by simp [insEs, hlt], ← ih]
    · have hpos : lowerIdx ((e :: es).map Prod.fst) k = 0 := by
        rw [List.map_cons]
        exact lowerIdx_cons_ge hlt _
      rw [hpos, List.getElem?_cons_zero]
      dsimp only
      by_cases heq : e.1 = k
      · rw [if_pos heq, List.set_cons_zero]
        simp [insEs, hlt, heq]
      · rw [if_neg heq, List.insertIdx_zero]
        simp [insEs, hlt, heq]

theorem insEs_shape (es : List (K × Finset V)) (k : K) (v : V) :
    ∀ e' ∈ insEs es k v, e'.1 = k ∨ e' ∈ es := by
  induction es with
  | nil =>
    intro e' h
    rcases List.mem_singleton.mp h with rfl
    exact Or.inl rfl
  | cons e es ih =>
    intro e' h
    by_cases hlt : e.1 < k
    · rw [show insEs (e :: es) k v = e :: insEs es k v by simp [insEs, hlt]] at h
      rcases List.mem_cons.mp h with rfl | h2
      · exact Or.inr (List.mem_cons_self _ _)
      · rcases ih e' h2 with h3 | h3
        · exact Or.inl h3
        · exact Or.inr (List.mem_cons_of_mem e h3)
    · by_cases heq : e.1 = k
      · rw [show insEs (e :: es) k v = (k, Insert.insert v e.2) :: es by simp [insEs, hlt, heq]] at h
        rcases List.mem_cons.mp h with rfl | h2
        · exact Or.inl rfl
        · exact Or.inr (List.mem_cons_of_mem e h2)
      · rw [show insEs (e :: es) k v = (k, {v}) :: e :: es by simp [insEs, hlt, heq]] at h
        rcases List.mem_cons.mp h with rfl | h2
        · exact Or.inl rfl
        · exact Or.inr h2

theorem insEs_keys_sorted {es : List (K × Finset V)} {k : K} (v : V)
    (h : List.Pairwise (· < ·) (es.map Prod.fst)) :
    List.Pairwise (· < ·) ((insEs es k v).map Prod.fst) := by
  induction es with
  | nil => exact List.pairwise_singleton _ _
  | cons e es ih =>
    rw [List.map_cons, List.pairwise_cons] at h
    by_cases hlt : e.1 < k
    · rw [show insEs (e :: es) k v = e :: insEs es k v by simp [insEs, hlt]]
      rw [List.map_cons, List.pairwise_cons]
      refine ⟨?_, ih h.2⟩
      intro y hy
      rcases List.mem_map.mp hy with ⟨e', he', rfl⟩
      rcases insEs_shape es k v e' he' with h3 | h3
      · rw [h3]; exact hlt
      · exact h.1 e'.1 (List.mem_map_of_mem Prod.fst h3)
    · by_cases heq : e.1 = k
      · rw [show insEs (e :: es) k v = (k, Insert.insert v e.2) :: es by simp [insEs, hlt, heq]]
        rw [List.map_cons, List.pairwise_cons]
        exact ⟨fun y hy => heq ▸ h.1 y hy, h.2⟩
      · have hgt : k < e.1 := lt_of_le_of_ne (not_lt.mp hlt) (Ne.symm heq)
        rw [show insEs (e :: es) k v = (k, {v}) :: e :: es by simp [insEs, hlt, heq]]
        rw [List.map_cons, List.map_cons, List.pairwise_cons]
        constructor
        · intro y hy
          rcases List.mem_cons.mp hy with rfl | hy2
          · exact hgt
          · exact hgt.trans (h.1 y hy2)
        · exact List.pairwise_cons.mpr ⟨h.1, h.2⟩

theorem insEs_length_le (es : List (K × Finset V)) (k : K) (v : V) :
    (insEs es k v).length ≤ es.length + 1 := by
  induction es with
  | nil => simp [insEs]
  | cons e es ih =>
    by_cases hlt : e.1 < k
    · rw [show insEs (e :: es) k v = e :: insEs es k v by simp [insEs, hlt]]
      simpa using ih
    · by_cases heq : e.1 = k
      · rw [show insEs (e :: es) k v = (k, Insert.insert v e.2) :: es by simp [insEs, hlt, heq]]
        simp
      · rw [show insEs (e :: es) k v = (k, {v}) :: e :: es by simp [insEs, hlt, heq]]
        simp

theorem insEs_append_left {A : List (K × Finset V)} {k : K}
    (hA : ∀ a ∈ A, a.1 < k) (B : List (K × Finset V)) (v : V) :
    insEs (A ++ B) k v = A ++ insEs B k v := by
  induction A with
  | nil => rfl
  | cons a A ih =>
    have hlt : a.1 < k := hA a (List.mem_cons_self _ _)
    rw [List.cons_append,
      show insEs (a :: (A ++ B)) k v = a :: insEs (A ++ B) k v by simp [insEs, hlt],
      ih (fun x hx => hA x (List.mem_cons_of_mem a hx)), List.cons_append]

theorem insEs_append_right {B : List (K × Finset V)} {k : K}
    (hB : ∀ b ∈ B, k < b.1) (A : List (K × Finset V)) (v : V) :
    insEs (A ++ B) k v = insEs A k v ++ B := by
  induction A with
  | nil =>
    rw [List.nil_append]
    cases B with
    | nil => rfl
    | cons b B =>
      have hgt : k < b.1 := hB b (List.mem_cons_self _ _)
      have hlt : ¬ b.1 < k := not_lt_of_gt hgt
      have hne : ¬ b.1 = k := ne_of_gt hgt
      simp [insEs, hlt, hne]
  | cons a A ih =>
    by_cases hlt : a.1 < k
    · rw [List.cons_append,
        show insEs (a :: (A ++ B)) k v = a :: insEs (A ++ B) k v by simp [insEs, hlt], ih,
        show insEs (a :: A) k v = a :: insEs A k v by simp [insEs, hlt], List.cons_append]
    · by_cases heq : a.1 = k
      · rw [List.cons_append,
          show insEs (a :: (A ++ B)) k v = (k, Insert.insert v a.2) :: (A ++ B) by
            simp [insEs, hlt, heq],
          show insEs (a :: A) k v = (k, Insert.insert v a.2) :: A by simp [insEs, hlt, heq],
          List.cons_append]
      · rw [List.cons_append,
          show insEs (a :: (A ++ B)) k v = (k, {v}) :: a :: (A ++ B) by simp [insEs, hlt, heq],
          show insEs (a :: A) k v = (k, {v}) :: a :: A by simp [insEs, hlt, heq]]
        rfl

theorem insEs_self {es : List (K × Finset V)} {k : K} {s : Finset V} {v : V}
    (hsort : List.Pairwise (· < ·) (es.map Prod.fst))
    (hmem : (k, s) ∈ es) (hv : v ∈ s) : insEs es k v = es := by
  induction es with
  | nil => cases hmem
  | cons e es ih =>
    rw [List.map_cons, List.pairwise_cons] at hsort
    by_cases hlt : e.1 < k
    · have hmem2 : (k, s) ∈ es := by
        rcases List.mem_cons.mp hmem with heq | h2
        · exact absurd (congrArg Prod.fst heq).symm (ne_of_lt hlt)
        · exact h2
      rw [show insEs (e :: es) k v = e :: insEs es k v by simp [insEs, hlt], ih hsort.2 hmem2]
    · by_cases heq : e.1 = k
      · have hes : e = (k, s) := by
          rcases List.mem_cons.mp hmem with h2 | h2
          · exact h2.symm
          · exact absurd (heq ▸ hsort.1 k (List.mem_map_of_mem Prod.fst h2)) (lt_irrefl k)
        rw [show insEs (e :: es) k v = (k, Insert.insert v e.2) :: es by simp [insEs, hlt, heq], hes]
        rw [show ((k, s) : K × Finset V).2 = s from rfl, Finset.insert_eq_self.mpr hv]
      · have hgt : k < e.1 := lt_of_le_of_ne (not_lt.mp hlt) (Ne.symm heq)
        rcases List.mem_cons.mp hmem with h2 | h2
        · exact absurd (congrArg Prod.fst h2).symm (ne_of_gt hgt)
        · exact absurd (hsort.1 k (List.mem_map_of_mem Prod.fst h2)) (not_lt_of_gt hgt)

theorem insEs_mem_self (es : List (K × Finset V)) (k : K) (v : V) :
    ∃ s, (k, s) ∈ insEs es k v ∧ v ∈ s := by
  induction es with
  | nil => exact ⟨{v}, List.mem_singleton_self _, Finset.mem_singleton_self v⟩
  | cons e es ih =>
    by_cases hlt : e.1 < k
    · rcases ih with ⟨s, hs, hv⟩
      rw [show insEs (e :: es) k v = e :: insEs es k v by simp [insEs, hlt]]
      exact ⟨s, List.mem_cons_of_mem e hs, hv⟩
    · by_cases heq : e.1 = k
      · rw [show insEs (e :: es) k v = (k, Insert.insert v e.2) :: es by simp [insEs, hlt, heq]]
        exact ⟨Insert.insert v e.2, List.mem_cons_self _ _, Finset.mem_insert_self v e.2⟩
      · rw [show insEs (e :: es) k v = (k, {v}) :: e :: es by simp [insEs, hlt, heq]]
        exact ⟨{v}, List.mem_cons_self _ _, Finset.mem_singleton_self v⟩

theorem lbOk_none (k : K) : lbOk (none : Option K) k := by simp [lbOk]

theorem ubOk_none (k : K) : ubOk (none : Option K) k := by simp [ubOk]

theorem sbOk_none (k : K) : sbOk (none : Option K) k := by simp [sbOk]

theorem lbOk_some_iff {x k : K} : lbOk (some x) k ↔ x ≤ k := by simp [lbOk]

theorem ubOk_some_iff {x k : K} : ubOk (some x) k ↔ k < x := by simp [ubOk]

theorem sbOk_some_iff {x k : K} : sbOk (some x) k ↔ x < k := by simp [sbOk]

theorem lbOk_of_sbOk {lo : Option K} {k : K} (h : sbOk lo k) : lbOk lo k :=
  fun l hl => le_of_lt (h l hl)

theorem lbOk_weaken {lo : Option K} {x k : K} (hx : sbOk lo x) (h : x ≤ k) :
    lbOk lo k :=
  fun l hl => le_of_lt (lt_of_lt_of_le (hx l hl) h)

theorem ubOk_weaken {hi : Option K} {x k : K} (hx : ubOk hi x) (h : k < x) :
    ubOk hi k :=
  fun l hl => lt_trans h (hx l hl)

theorem toList_leaf (es : List (K × Finset V)) : toList (.leaf es : Tree K V) = es := by
  simp [toList]

theorem toList_node (ks : List K) (cs : List (Tree K V)) :
    toList (.node ks cs) = cs.flatMap toList := by
  induction cs with
  | nil => simp [toList]
  | cons c cs ih => rw [List.flatMap_cons, ← ih]; simp [toList]

theorem leaves_leaf (es : List (K × Finset V)) : leaves (.leaf es : Tree K V) = [es] := by
  simp [leaves]

theorem leaves_node (ks : List K) (cs : List (Tree K V)) :
    leaves (.node ks cs) = cs.flatMap leaves := by
  induction cs with
  | nil => simp [leaves]
  | cons c cs ih => rw [List.flatMap_cons, ← ih]; simp [leaves]

/-- The in-order entries are the concatenation of the leaves of the chain. -/
theorem toList_eq_leaves_join (t : Tree K V) :
    toList t = (leaves t).flatMap id := by
  induction t using toList.induct with
  | case1 es => simp [toList_leaf, leaves_leaf]
  | case2 ks => simp [toList_node, leaves_node]
  | case3 ks c cs ih1 ih2 =>
    rw [toList_node, List.flatMap_cons, leaves_node, List.flatMap_cons, List.flatMap_append,
      ih1, ← leaves_node ks, ← ih2, toList_node]

theorem wfc_length {M : ℕ} : ∀ (ks : List K) (cs : List (Tree K V)) (lo hi : Option K),
    WFC M lo ks cs hi → cs.length = ks.length + 1 := by
  intro ks
  induction ks with
  | nil =>
    intro cs lo hi h
    cases h
    rfl
  | cons x ks ih =>
    intro cs lo hi h
    cases h with
    | cons hc hrest =>
      rw [List.length_cons, List.length_cons, ih _ _ _ hrest]

/-- Bounds of all entries below an interleaved separator/children chain
(the tree-level statement is threaded through the `IH` argument). -/
theorem chain_bounds {M : ℕ} : ∀ (ks : List K) (cs : List (Tree K V)) (lo hi : Option K),
    WFC M lo ks cs hi →
    (∀ x ∈ ks, sbOk lo x ∧ ubOk hi x) →
    List.Pairwise (· < ·) ks →
    (∀ c ∈ cs, ∀ (lo' hi' : Option K), WF M lo' hi' c →
      ∀ e ∈ toList c, lbOk lo' e.1 ∧ ubOk hi' e.1) →
    ∀ e ∈ cs.flatMap toList, lbOk lo e.1 ∧ ubOk hi e.1 := by
  intro ks
  induction ks with
  | nil =>
    intro cs lo hi h hb hp IH e he
    cases h with
    | single hc =>
      rw [List.flatMap_cons, List.flatMap_nil, List.append_nil] at he
      exact IH _ (List.mem_cons_self _ _) lo hi hc e he
  | cons x ks ih =>
    intro cs lo hi h hb hp IH e he
    cases h with
    | cons hc hrest =>
      rw [List.flatMap_cons] at he
      have hx := hb x (List.mem_cons_self _ _)
      rcases List.mem_append.mp he with he1 | he2
      · have h1 := IH _ (List.mem_cons_self _ _) lo (some x) hc e he1
        exact ⟨h1.1, ubOk_weaken hx.2 (ubOk_some_iff.mp h1.2)⟩
      · have hb' : ∀ y ∈ ks, sbOk (some x) y ∧ ubOk hi y := by
          intro y hy
          refine ⟨sbOk_some_iff.mpr ?_, (hb y (List.mem_cons_of_mem x hy)).2⟩
          exact (List.pairwise_cons.mp hp).1 y hy
        have h2 := ih _ (some x) hi hrest hb' (List.pairwise_cons.mp hp).2
          (fun c hc' => IH c (List.mem_cons_of_mem _ hc')) e he2
        exact ⟨lbOk_weaken hx.1 (lbOk_some_iff.mp h2.1), h2.2⟩

/-- All entries of a well-formed subtree satisfy its bounds. -/
theorem wf_bounds {M : ℕ} : ∀ (n : ℕ) (t : Tree K V), sizeOf t ≤ n →
    ∀ (lo hi : Option K), WF M lo hi t → ∀ e ∈ toList t, lbOk lo e.1 ∧ ubOk hi e.1 := by
  intro n
  induction n with
  | zero =>
    intro t ht
    cases t <;> simp at ht
  | succ n ihn =>
    intro t ht lo hi hwf
    cases hwf with
    | leaf hlen hsort hb =>
      rw [toList_leaf]
      exact hb
    | @node lo hi ks cs hlen hp hb hwfc =>
      rw [toList_node]
      refine chain_bounds ks cs lo hi hwfc hb hp ?_
      intro c hc lo' hi' h'
      have hsz : sizeOf c < sizeOf (Tree.node ks cs : Tree K V) := by
        have := List.sizeOf_lt_of_mem hc
        simp only [Tree.node.sizeOf_spec]
        omega
      exact ihn c (by omega) lo' hi' h'

/-- Sortedness of the in-order keys below an interleaved chain. -/
theorem chain_sorted {M : ℕ} : ∀ (ks : List K) (cs : List (Tree K V)) (lo hi : Option K),
    WFC M lo ks cs hi →
    (∀ x ∈ ks, sbOk lo x ∧ ubOk hi x) →
    List.Pairwise (· < ·) ks →
    (∀ c ∈ cs, ∀ (lo' hi' : Option K), WF M lo' hi' c →
      List.Pairwise (· < ·) ((toList c).map Prod.fst)) →
    List.Pairwise (· < ·) ((cs.flatMap toList).map Prod.fst) := by
  intro ks
  induction ks with
  | nil =>
    intro cs lo hi h hb hp IH
    cases h with
    | single hc =>
      rw [List.flatMap_cons, List.flatMap_nil, List.append_nil]
      exact IH _ (List.mem_cons_self _ _) lo hi hc
  | cons x ks ih =>
    intro cs lo hi h hb hp IH
    cases h with
    | @cons lo hi x ks c cs hc hrest =>
      rw [List.flatMap_cons, List.map_append, List.pairwise_append]
      have hx := hb x (List.mem_cons_self _ _)
      have hb' : ∀ y ∈ ks, sbOk (some x) y ∧ ubOk hi y := by
        intro y hy
        refine ⟨sbOk_some_iff.mpr ?_, (hb y (List.mem_cons_of_mem x hy)).2⟩
        exact (List.pairwise_cons.mp hp).1 y hy
      refine ⟨IH _ (List.mem_cons_self _ _) lo (some x) hc,
        ih _ (some x) hi hrest hb' (List.pairwise_cons.mp hp).2
          (fun c' hc' => IH c' (List.mem_cons_of_mem _ hc')), ?_⟩
      intro a ha b hb2
      rcases List.mem_map.mp ha with ⟨ea, hea, rfl⟩
      rcases List.mem_map.mp hb2 with ⟨eb, heb, rfl⟩
      have h1 : ubOk (some x) ea.1 := (wf_bounds (sizeOf c) c le_rfl lo (some x) hc ea hea).2
      have h2 : lbOk (some x) eb.1 := (chain_bounds ks cs (some x) hi hrest hb'
        (List.pairwise_cons.mp hp).2
        (fun c' hc' lo' hi' h' => wf_bounds (sizeOf c') c' le_rfl lo' hi' h') eb heb).1
      exact lt_of_lt_of_le (ubOk_some_iff.mp h1) (lbOk_some_iff.mp h2)

/-- The in-order keys of a well-formed subtree are strictly sorted. -/
theorem wf_sorted {M : ℕ} : ∀ (n : ℕ) (t : Tree K V), sizeOf t ≤ n →
    ∀ (lo hi : Option K), WF M lo hi t →
    List.Pairwise (· < ·) ((toList t).map Prod.fst) := by
  intro n
  induction n with
  | zero =>
    intro t ht
    cases t <;> simp at ht
  | succ n ihn =>
    intro t ht lo hi hwf
    cases hwf with
    | leaf hlen hsort hb =>
      rw [toList_leaf]
      exact hsort
    | @node lo hi ks cs hlen hp hb hwfc =>
      rw [toList_node]
      refine chain_sorted ks cs lo hi hwfc hb hp ?_
      intro c hc lo' hi' h'
      have hsz : sizeOf c < sizeOf (Tree.node ks cs : Tree K V) := by
        have := List.sizeOf_lt_of_mem hc
        simp only [Tree.node.sizeOf_spec]
        omega
      exact ihn c (by omega) lo' hi' h'

theorem insRec_leaf_eq (M : ℕ) (es : List (K × Finset V)) (k : K) (v : V) :
    insRec M (.leaf es) k v =
      (if (insLeaf es k v).length > M then
        match (insLeaf es k v).drop ((insLeaf es k v).length / 2) with
        | [] => (.leaf (insLeaf es k v), none)
        | e :: tl =>
          (.leaf ((insLeaf es k v).take ((insLeaf es k v).length / 2)),
            some (.leaf (e :: tl), e.1))
      else (.leaf (insLeaf es k v), none)) := by
  simp only [insRec]

theorem insRec_node_none (M : ℕ) (ks : List K) (cs : List (Tree K V)) (k : K) (v : V)
    (hc : cs[upperIdx ks k]? = none) :
    insRec M (.node ks cs) k v = (.node ks cs, none) := by
  simp only [insRec]
  split
  · rfl
  · rename_i c heq
    rw [hc] at heq
    cases heq

theorem insRec_node_some (M : ℕ) (ks : List K) (cs : List (Tree K V)) (k : K) (v : V)
    (c : Tree K V) (hc : cs[upperIdx ks k]? = some c) :
    insRec M (.node ks cs) k v =
      (match (insRec M c k v).2 with
       | none => (.node ks (cs.set (upperIdx ks k) (insRec M c k v).1), none)
       | some (sib, pk) =>
         if (ks.insertIdx (upperIdx ks k) pk).length > M - 1 then
           match (ks.insertIdx (upperIdx ks k) pk)[(ks.insertIdx (upperIdx ks k) pk).length / 2]? with
           | none =>
             (.node (ks.insertIdx (upperIdx ks k) pk)
               ((cs.set (upperIdx ks k) (insRec M c k v).1).insertIdx (upperIdx ks k + 1) sib), none)
           | some pk2 =>
             (.node ((ks.insertIdx (upperIdx ks k) pk).take ((ks.insertIdx (upperIdx ks k) pk).length / 2))
               (((cs.set (upperIdx ks k) (insRec M c k v).1).insertIdx (upperIdx ks k + 1) sib).take
                 ((ks.insertIdx (upperIdx ks k) pk).length / 2 + 1)),
               some (.node ((ks.insertIdx (upperIdx ks k) pk).drop ((ks.insertIdx (upperIdx ks k) pk).length / 2 + 1))
                 (((cs.set (upperIdx ks k) (insRec M c k v).1).insertIdx (upperIdx ks k + 1) sib).drop
                   ((ks.insertIdx (upperIdx ks k) pk).length / 2 + 1)), pk2))
         else
           (.node (ks.insertIdx (upperIdx ks k) pk)
             ((cs.set (upperIdx ks k) (insRec M c k v).1).insertIdx (upperIdx ks k + 1) sib), none)) := by
  simp only [insRec]
  split
  · rename_i heq
    rw [hc] at heq
    cases heq
  · rename_i c' heq
    rw [hc] at heq
    injection heq with h
    subst h
    rfl

/-- Splitting an interleaved chain at a separator. -/
theorem wfc_split {M : ℕ} : ∀ (ks1 : List K) (cs : List (Tree K V)) (ks2 : List K)
    (pk : K) (lo hi : Option K),
    WFC M lo (ks1 ++ pk :: ks2) cs hi →
    WFC M lo ks1 (cs.take (ks1.length + 1)) (some pk) ∧
    WFC M (some pk) ks2 (cs.drop (ks1.length + 1)) hi := by
  intro ks1
  induction ks1 with
  | nil =>
    intro cs ks2 pk lo hi h
    rw [List.nil_append] at h
    cases h with
    | cons hc hrest =>
      exact ⟨WFC.single hc, hrest⟩
  | cons x ks1 ih =>
    intro cs ks2 pk lo hi h
    rw [List.cons_append] at h
    cases h with
    | cons hc hrest =>
      rcases ih _ ks2 pk _ hi hrest with ⟨h1, h2⟩
      exact ⟨WFC.cons hc h1, h2⟩

/-- Effect of one `insert_into_internal` step on a well-formed
separator/children chain: descending into child `upper_bound(keys, k)`,
replacing it by the updated child and, on a child split, inserting the
promoted key and sibling, yields a well-formed chain whose entries are
`insEs` of the old entries.  The behaviour of the recursive call on the
child is supplied through `specIH`. -/
theorem chain_ins {M : ℕ} (k : K) (v : V) :
    ∀ (ks : List K) (cs : List (Tree K V)) (lo hi : Option K),
    WFC M lo ks cs hi →
    (∀ x ∈ ks, sbOk lo x ∧ ubOk hi x) →
    List.Pairwise (· < ·) ks →
    lbOk lo k → ubOk hi k →
    (∀ c ∈ cs, ∀ (lo' hi' : Option K), WF M lo' hi' c → lbOk lo' k → ubOk hi' k →
      (((insRec M c k v).2 = none → WF M lo' hi' (insRec M c k v).1 ∧
          toList (insRec M c k v).1 = insEs (toList c) k v)
       ∧ (∀ sib pk, (insRec M c k v).2 = some (sib, pk) →
          WF M lo' (some pk) (insRec M c k v).1 ∧ WF M (some pk) hi' sib ∧
          sbOk lo' pk ∧ ubOk hi' pk ∧
          toList (insRec M c k v).1 ++ toList sib = insEs (toList c) k v))) →
    ∃ c, cs[upperIdx ks k]? = some c ∧
      (((insRec M c k v).2 = none →
         WFC M lo ks (cs.set (upperIdx ks k) (insRec M c k v).1) hi ∧
         (cs.set (upperIdx ks k) (insRec M c k v).1).flatMap toList
           = insEs (cs.flatMap toList) k v)
       ∧ (∀ sib pk, (insRec M c k v).2 = some (sib, pk) →
         WFC M lo (ks.insertIdx (upperIdx ks k) pk)
           ((cs.set (upperIdx ks k) (insRec M c k v).1).insertIdx (upperIdx ks k + 1) sib) hi ∧
         List.Pairwise (· < ·) (ks.insertIdx (upperIdx ks k) pk) ∧
         (∀ x ∈ ks.insertIdx (upperIdx ks k) pk, sbOk lo x ∧ ubOk hi x) ∧
         ((cs.set (upperIdx ks k) (insRec M c k v).1).insertIdx (upperIdx ks k + 1) sib).flatMap toList
           = insEs (cs.flatMap toList) k v)) := by
  intro ks
  induction ks with
  | nil =>
    intro cs lo hi hwfc hb hp hlb hub specIH
    cases hwfc with
    | single hc0 =>
      rename_i c0
      refine ⟨c0, by rw [upperIdx_nil]; exact List.getElem?_cons_zero, ?_, ?_⟩
      · intro hnone
        rcases (specIH c0 (List.mem_cons_self _ _) lo hi hc0 hlb hub).1 hnone with ⟨hwf', htl⟩
        rw [upperIdx_nil]
        refine ⟨?_, ?_⟩
        · rw [List.set_cons_zero]
          exact WFC.single hwf'
        · rw [List.set_cons_zero]
          simp only [List.flatMap_cons, List.flatMap_nil, List.append_nil]
          exact htl
      · intro sib pk hsome
        rcases (specIH c0 (List.mem_cons_self _ _) lo hi hc0 hlb hub).2 sib pk hsome with
          ⟨hwfl, hwfr, hsb, hub2, htl⟩
        rw [upperIdx_nil]
        rw [List.set_cons_zero, List.insertIdx_zero, List.insertIdx_succ_cons, List.insertIdx_zero]
        refine ⟨WFC.cons hwfl (WFC.single hwfr), List.pairwise_singleton _ _, ?_, ?_⟩
        · intro x hx
          rcases List.mem_singleton.mp hx with rfl
          exact ⟨hsb, hub2⟩
        · simp only [List.flatMap_cons, List.flatMap_nil, List.append_nil, ← List.append_assoc]
          exact htl
  | cons x ks ih =>
    intro cs lo hi hwfc hb hp hlb hub specIH
    cases hwfc with
    | @cons lo hi x ks c0 cs hc0 hrest =>
      have hx := hb x (List.mem_cons_self _ _)
      by_cases hxk : x ≤ k
      · -- descend into the tail of the chain
        have hb' : ∀ y ∈ ks, sbOk (some x) y ∧ ubOk hi y := by
          intro y hy
          exact ⟨sbOk_some_iff.mpr ((List.pairwise_cons.mp hp).1 y hy),
            (hb y (List.mem_cons_of_mem x hy)).2⟩
        have hA : ∀ a ∈ toList c0, a.1 < k := by
          intro a ha
          have := (wf_bounds (sizeOf c0) c0 le_rfl lo (some x) hc0 a ha).2
          exact lt_of_lt_of_le (ubOk_some_iff.mp this) hxk
        rcases ih cs (some x) hi hrest hb' (List.pairwise_cons.mp hp).2
          (lbOk_some_iff.mpr hxk) hub
          (fun c hc => specIH c (List.mem_cons_of_mem _ hc)) with ⟨c, hcg, hnone, hsplit⟩
        refine ⟨c, ?_, ?_, ?_⟩
        · rw [upperIdx_cons_le hxk, List.getElem?_cons_succ]
          exact hcg
        · intro hn
          rcases hnone hn with ⟨hwfc2, htl⟩
          rw [upperIdx_cons_le hxk, List.set_cons_succ]
          refine ⟨WFC.cons hc0 hwfc2, ?_⟩
          rw [List.flatMap_cons, List.flatMap_cons, insEs_append_left hA _ v, htl]
        · intro sib pk hs
          rcases hsplit sib pk hs with ⟨hwfc2, hp2, hb2, htl⟩
          rw [upperIdx_cons_le hxk, List.set_cons_succ, List.insertIdx_succ_cons,
            List.insertIdx_succ_cons]
          refine ⟨WFC.cons hc0 hwfc2, ?_, ?_, ?_⟩
          · rw [List.pairwise_cons]
            refine ⟨?_, hp2⟩
            intro y hy
            exact sbOk_some_iff.mp (hb2 y hy).1
          · intro y hy
            rcases List.mem_cons.mp hy with rfl | hy2
            · exact hx
            · have := hb2 y hy2
              exact ⟨fun l hl => lt_trans (hx.1 l hl) (sbOk_some_iff.mp this.1), this.2⟩
          · rw [List.flatMap_cons, List.flatMap_cons, insEs_append_left hA _ v, htl]
      · -- descend into the head child
        have hkx : k < x := not_le.mp hxk
        have hB : ∀ b ∈ cs.flatMap toList, k < b.1 := by
          intro b hb2
          have hb' : ∀ y ∈ ks, sbOk (some x) y ∧ ubOk hi y := by
            intro y hy
            exact ⟨sbOk_some_iff.mpr ((List.pairwise_cons.mp hp).1 y hy),
              (hb y (List.mem_cons_of_mem x hy)).2⟩
          have := (chain_bounds ks cs (some x) hi hrest hb' (List.pairwise_cons.mp hp).2
            (fun c' hc' lo' hi' h' => wf_bounds (sizeOf c') c' le_rfl lo' hi' h') b hb2).1
          exact lt_of_lt_of_le hkx (lbOk_some_iff.mp this)
        have hspec := specIH c0 (List.mem_cons_self _ _) lo (some x) hc0 hlb
          (ubOk_some_iff.mpr hkx)
        refine ⟨c0, ?_, ?_, ?_⟩
        · rw [upperIdx_cons_gt hxk]
          exact List.getElem?_cons_zero
        · intro hn
          rcases hspec.1 hn with ⟨hwf', htl⟩
          rw [upperIdx_cons_gt hxk, List.set_cons_zero]
          refine ⟨WFC.cons hwf' hrest, ?_⟩
          rw [List.flatMap_cons, List.flatMap_cons, insEs_append_right hB _ v, htl]
        · intro sib pk hs
          rcases hspec.2 sib pk hs with ⟨hwfl, hwfr, hsb, hub2, htl⟩
          rw [upperIdx_cons_gt hxk, List.set_cons_zero, List.insertIdx_zero,
            List.insertIdx_succ_cons, List.insertIdx_zero]
          have hpkx : pk < x := ubOk_some_iff.mp hub2
          refine ⟨WFC.cons hwfl (WFC.cons hwfr hrest), ?_, ?_, ?_⟩
          · rw [List.pairwise_cons]
            refine ⟨?_, hp⟩
            intro y hy
            rcases List.mem_cons.mp hy with rfl | hy2
            · exact hpkx
            · exact lt_trans hpkx ((List.pairwise_cons.mp hp).1 y hy2)
          · intro y hy
            rcases List.mem_cons.mp hy with rfl | hy2
            · exact ⟨hsb, fun l hl => lt_trans hpkx (hx.2 l hl)⟩
            · exact hb y hy2
          · rw [List.flatMap_cons, List.flatMap_cons, List.flatMap_cons,
              insEs_append_right hB _ v, ← htl, List.append_assoc]

/-- Specification of `insert_recursive`: on a well-formed subtree whose
bounds admit the key, it returns a well-formed subtree (and, on a split, a
well-formed sibling with a promoted key strictly between the bounds), and
the entries afterwards are exactly `insEs` of the entries before. -/
theorem insRec_spec {M : ℕ} (hM : 1 ≤ M) : ∀ (n : ℕ) (t : Tree K V), sizeOf t ≤ n →
    ∀ (lo hi : Option K) (k : K) (v : V), WF M lo hi t → lbOk lo k → ubOk hi k →
    (((insRec M t k v).2 = none → WF M lo hi (insRec M t k v).1 ∧
        toList (insRec M t k v).1 = insEs (toList t) k v)
     ∧ (∀ sib pk, (insRec M t k v).2 = some (sib, pk) →
        WF M lo (some pk) (insRec M t k v).1 ∧ WF M (some pk) hi sib ∧
        sbOk lo pk ∧ ubOk hi pk ∧
        toList (insRec M t k v).1 ++ toList sib = insEs (toList t) k v)) := by
  intro n
  induction n with
  | zero =>
    intro t ht
    cases t <;> simp at ht
  | succ n ihn =>
    intro t ht lo hi k v hwf hlb hub
    cases hwf with
    | @leaf lo hi es hlen hsort hbnd =>
      rw [insRec_leaf_eq]
      have hes' : insLeaf es k v = insEs es k v := insLeaf_eq_insEs es k v
      have hlen' : (insLeaf es k v).length ≤ es.length + 1 := by
        rw [hes']; exact insEs_length_le es k v
      have hsort' : List.Pairwise (· < ·) ((insLeaf es k v).map Prod.fst) := by
        rw [hes']; exact insEs_keys_sorted v hsort
      have hbnd' : ∀ e ∈ insLeaf es k v, lbOk lo e.1 ∧ ubOk hi e.1 := by
        rw [hes']
        intro e he
        rcases insEs_shape es k v e he with h1 | h1
        · rw [h1]; exact ⟨hlb, hub⟩
        · exact hbnd e h1
      by_cases hov : (insLeaf es k v).length > M
      · rw [if_pos hov]
        have hmid : (insLeaf es k v).length / 2 < (insLeaf es k v).length := by omega
        cases hdrop : (insLeaf es k v).drop ((insLeaf es k v).length / 2) with
        | nil =>
          exfalso
          have hcon := congrArg List.length hdrop
          rw [List.length_drop, List.length_nil] at hcon
          omega
        | cons e tl =>
          have hsplit : insLeaf es k v =
              (insLeaf es k v).take ((insLeaf es k v).length / 2) ++ e :: tl := by
            rw [← hdrop, List.take_append_drop]
          have hmap : ((insLeaf es k v).map Prod.fst) =
              ((insLeaf es k v).take ((insLeaf es k v).length / 2)).map Prod.fst ++
                (e :: tl).map Prod.fst := by
            rw [← List.map_append, ← hsplit]
          have hpa := List.pairwise_append.mp (hmap ▸ hsort')
          have hcross : ∀ a ∈ (insLeaf es k v).take ((insLeaf es k v).length / 2), a.1 < e.1 := by
            intro a ha
            exact hpa.2.2 a.1 (List.mem_map_of_mem Prod.fst ha) e.1
              (List.mem_map_of_mem Prod.fst (List.mem_cons_self _ _))
          have htne : (insLeaf es k v).take ((insLeaf es k v).length / 2) ≠ [] := by
            intro hemp
            have hlt0 := congrArg List.length hemp
            rw [List.length_take, List.length_nil] at hlt0
            omega
          have hdlen : ((e :: tl).length : ℕ) = (insLeaf es k v).length -
              (insLeaf es k v).length / 2 := by
            rw [← hdrop, List.length_drop]
          dsimp only
          constructor
          · intro hcon
            cases hcon
          · intro sib pk hs
            injection hs with hpair
            injection hpair with hsib hpk
            subst hsib
            subst hpk
            refine ⟨?_, ?_, ?_, ?_, ?_⟩
            · refine WF.leaf ?_ ?_ ?_
              · rw [List.length_take]
                omega
              · exact List.Pairwise.sublist ((List.take_sublist _ _).map Prod.fst) hsort'
              · intro a ha
                exact ⟨(hbnd' a (List.mem_of_mem_take ha)).1,
                  fun l hl => by cases hl; exact hcross a ha⟩
            · refine WF.leaf ?_ ?_ ?_
              · omega
              · exact List.Pairwise.sublist ((hdrop ▸ List.drop_sublist _ _).map Prod.fst) hsort'
              · intro b hb2
                refine ⟨?_, (hbnd' b (by rw [hsplit]; exact List.mem_append_right _ hb2)).2⟩
                intro l hl
                cases hl
                rcases List.mem_cons.mp hb2 with rfl | hb3
                · exact le_rfl
                · exact le_of_lt (List.rel_of_pairwise_cons hpa.2.1
                    (List.mem_map_of_mem Prod.fst hb3))
            · rcases List.exists_mem_of_ne_nil _ htne with ⟨a, ha⟩
              intro l hl
              exact lt_of_le_of_lt ((hbnd' a (List.mem_of_mem_take ha)).1 l hl) (hcross a ha)
            · exact (hbnd' e (by rw [hsplit]; exact List.mem_append_right _ (List.mem_cons_self _ _))).2
            · rw [toList_leaf, toList_leaf, toList_leaf, ← hsplit, hes']
      · rw [if_neg hov]
        constructor
        · intro _
          refine ⟨WF.leaf (by omega) hsort' hbnd', ?_⟩
          rw [toList_leaf, toList_leaf, hes']
        · intro sib pk hs
          cases hs
    | @node lo hi ks cs hlen hp hbnd hwfc =>
      have hIH : ∀ c ∈ cs, ∀ (lo' hi' : Option K), WF M lo' hi' c → lbOk lo' k → ubOk hi' k →
          (((insRec M c k v).2 = none → WF M lo' hi' (insRec M c k v).1 ∧
              toList (insRec M c k v).1 = insEs (toList c) k v)
           ∧ (∀ sib pk, (insRec M c k v).2 = some (sib, pk) →
              WF M lo' (some pk) (insRec M c k v).1 ∧ WF M (some pk) hi' sib ∧
              sbOk lo' pk ∧ ubOk hi' pk ∧
              toList (insRec M c k v).1 ++ toList sib = insEs (toList c) k v)) := by
        intro c hc lo' hi' h' hlb' hub'
        have hsz : sizeOf c < sizeOf (Tree.node ks cs : Tree K V) := by
          have := List.sizeOf_lt_of_mem hc
          simp only [Tree.node.sizeOf_spec]
          omega
        exact ihn c (by omega) lo' hi' k v h' hlb' hub'
      rcases chain_ins k v ks cs lo hi hwfc hbnd hp hlb hub hIH with ⟨c, hc, hnone, hsplit⟩
      rw [insRec_node_some M ks cs k v c hc]
      cases hr2 : (insRec M c k v).2 with
      | none =>
        dsimp only
        rcases hnone hr2 with ⟨hwfc2, htl2⟩
        constructor
        · intro _
          refine ⟨WF.node hlen hp hbnd hwfc2, ?_⟩
          rw [toList_node, toList_node, htl2]
        · intro sib pk hs
          cases hs
      | some pr =>
        rcases pr with ⟨sib, pk⟩
        dsimp only
        rcases hsplit sib pk hr2 with ⟨hwfc2, hp2, hb2, htl2⟩
        have hpos : upperIdx ks k ≤ ks.length := upperIdx_le_length ks k
        have hlen2 : (ks.insertIdx (upperIdx ks k) pk).length = ks.length + 1 :=
          List.length_insertIdx _ _ hpos
        by_cases hov : (ks.insertIdx (upperIdx ks k) pk).length > M - 1
        · rw [if_pos hov]
          have hmid2 : (ks.insertIdx (upperIdx ks k) pk).length / 2 <
              (ks.insertIdx (upperIdx ks k) pk).length := by omega
          cases hpk2 : (ks.insertIdx (upperIdx ks k) pk)[(ks.insertIdx (upperIdx ks k) pk).length / 2]? with
          | none =>
            exfalso
            rw [List.getElem?_eq_none_iff] at hpk2
            omega
          | some pk2 =>
            rcases List.getElem?_eq_some.mp hpk2 with ⟨hlt2, hget2⟩
            have hks2eq : ks.insertIdx (upperIdx ks k) pk =
                (ks.insertIdx (upperIdx ks k) pk).take ((ks.insertIdx (upperIdx ks k) pk).length / 2) ++
                  pk2 :: (ks.insertIdx (upperIdx ks k) pk).drop
                    ((ks.insertIdx (upperIdx ks k) pk).length / 2 + 1) := by
              conv_lhs => rw [← List.take_append_drop
                ((ks.insertIdx (upperIdx ks k) pk).length / 2) (ks.insertIdx (upperIdx ks k) pk)]
              rw [List.drop_eq_getElem_cons hmid2, hget2]
            have htklen : ((ks.insertIdx (upperIdx ks k) pk).take
                ((ks.insertIdx (upperIdx ks k) pk).length / 2)).length =
                (ks.insertIdx (upperIdx ks k) pk).length / 2 := by
              rw [List.length_take]
              omega
            have hwfc3 := hks2eq ▸ hwfc2
            rcases wfc_split _ _ _ _ _ _ hwfc3 with ⟨hL, hR⟩
            rw [htklen] at hL hR
            have hmapsp : ((ks.insertIdx (upperIdx ks k) pk).take
                  ((ks.insertIdx (upperIdx ks k) pk).length / 2)) ++
                pk2 :: ((ks.insertIdx (upperIdx ks k) pk).drop
                  ((ks.insertIdx (upperIdx ks k) pk).length / 2 + 1)) =
                ks.insertIdx (upperIdx ks k) pk := hks2eq.symm
            have hpa2 := List.pairwise_append.mp (hks2eq ▸ hp2)
            have hpk2mem : pk2 ∈ ks.insertIdx (upperIdx ks k) pk := by
              rw [hks2eq]
              exact List.mem_append_right _ (List.mem_cons_self _ _)
            dsimp only
            constructor
            · intro hcon
              cases hcon
            · intro sib' pk' hs
              injection hs with hpair
              injection hpair with hsib hpk
              subst hsib
              subst hpk
              refine ⟨?_, ?_, ?_, ?_, ?_⟩
              · refine WF.node ?_ ?_ ?_ hL
                · rw [htklen]; omega
                · exact List.Pairwise.sublist (List.take_sublist _ _) hp2
                · intro y hy
                  refine ⟨(hb2 y (List.mem_of_mem_take hy)).1, ?_⟩
                  intro l hl
                  cases hl
                  exact hpa2.2.2 y hy pk2 (List.mem_cons_self _ _)
              · refine WF.node ?_ ?_ ?_ hR
                · rw [List.length_drop]; omega
                · exact List.Pairwise.sublist (List.drop_sublist _ _) hp2
                · intro y hy
                  refine ⟨?_, (hb2 y (List.mem_of_mem_drop hy)).2⟩
                  intro l hl
                  cases hl
                  exact List.rel_of_pairwise_cons hpa2.2.1 hy
              · exact (hb2 pk2 hpk2mem).1
              · exact (hb2 pk2 hpk2mem).2
              · rw [toList_node, toList_node, toList_node, ← htl2, ← List.flatMap_append,
                  List.take_append_drop]
        · rw [if_neg hov]
          constructor
          · intro _
            refine ⟨WF.node (by omega) hp2 hb2 hwfc2, ?_⟩
            rw [toList_node, toList_node, htl2]
          · intro sib' pk' hs
            cases hs

/-- `pessimistic_insert` preserves well-formedness of the whole tree and
rewrites its entries by `insEs`. -/
theorem insTree_spec {M : ℕ} (hM : 2 ≤ M) (t : Tree K V) (k : K) (v : V)
    (h : WF M none none t) :
    WF M none none (insTree M t k v) ∧ toList (insTree M t k v) = insEs (toList t) k v := by
  have hspec := insRec_spec (M := M) (by omega) (sizeOf t) t le_rfl none none k v h
    (lbOk_none k) (ubOk_none k)
  cases hr : insRec M t k v with
  | mk t' osp =>
    cases osp with
    | none =>
      have h2 := hspec.1 (by rw [hr])
      rw [hr] at h2
      have ht' : insTree M t k v = t' := by
        unfold insTree
        rw [hr]
      rw [ht']
      exact h2
    | some pr =>
      rcases pr with ⟨sib, pk⟩
      have h2 := hspec.2 sib pk (by rw [hr])
      rw [hr] at h2
      rcases h2 with ⟨hl, hrr, hsb, hub, htl⟩
      have ht' : insTree M t k v = .node [pk] [t', sib] := by
        unfold insTree
        rw [hr]
      rw [ht']
      constructor
      · refine WF.node ?_ (List.pairwise_singleton _ _) ?_
          (WFC.cons hl (WFC.single hrr))
        · simp only [List.length_singleton]
          omega
        · intro x hx
          rcases List.mem_singleton.mp hx with rfl
          exact ⟨hsb, hub⟩
      · rw [toList_node]
        simp only [List.flatMap_cons, List.flatMap_nil, List.append_nil]
        exact htl

theorem optIns_leaf_eq (M : ℕ) (es : List (K × Finset V)) (k : K) (v : V) :
    optIns M (.leaf es) k v =
      if es.length < M then (true, .leaf (insLeaf es k v)) else (false, .leaf es) := by
  simp only [optIns]

theorem optIns_node_none (M : ℕ) (ks : List K) (cs : List (Tree K V)) (k : K) (v : V)
    (hc : cs[upperIdx ks k]? = none) :
    optIns M (.node ks cs) k v = (false, .node ks cs) := by
  simp only [optIns]
  split
  · rfl
  · rename_i c heq
    rw [hc] at heq
    cases heq

theorem optIns_node_some (M : ℕ) (ks : List K) (cs : List (Tree K V)) (k : K) (v : V)
    (c : Tree K V) (hc : cs[upperIdx ks k]? = some c) :
    optIns M (.node ks cs) k v =
      (if (optIns M c k v).1 then (true, .node ks (cs.set (upperIdx ks k) (optIns M c k v).2))
       else (false, .node ks cs)) := by
  simp only [optIns]
  split
  · rename_i heq
    rw [hc] at heq
    cases heq
  · rename_i c' heq
    rw [hc] at heq
    injection heq with h
    subst h
    rfl

/-- When the optimistic insert succeeds, the recursive (pessimistic)
insertion performs the identical update with no split. -/
theorem optIns_true_insRec {M : ℕ} : ∀ (n : ℕ) (t : Tree K V), sizeOf t ≤ n →
    ∀ (k : K) (v : V),
    (optIns M t k v).1 = true → insRec M t k v = ((optIns M t k v).2, none) := by
  intro n
  induction n with
  | zero =>
    intro t ht
    cases t <;> simp at ht
  | succ n ihn =>
    intro t ht k v hb
    cases t with
    | leaf es =>
      by_cases hsafe : es.length < M
      · rw [optIns_leaf_eq, if_pos hsafe, insRec_leaf_eq]
        have hle : (insLeaf es k v).length ≤ es.length + 1 := by
          rw [insLeaf_eq_insEs]
          exact insEs_length_le es k v
        rw [if_neg (by omega)]
      · rw [optIns_leaf_eq, if_neg hsafe] at hb
        cases hb
    | node ks cs =>
      cases hc : cs[upperIdx ks k]? with
      | none =>
        rw [optIns_node_none M ks cs k v hc] at hb
        cases hb
      | some c =>
        rw [optIns_node_some M ks cs k v c hc] at hb
        by_cases hcb : (optIns M c k v).1 = true
        · have hsz : sizeOf c < sizeOf (Tree.node ks cs : Tree K V) := by
            have := List.sizeOf_lt_of_mem (List.getElem?_mem hc)
            simp only [Tree.node.sizeOf_spec]
            omega
          have hrec := ihn c (by omega) k v hcb
          rw [insRec_node_some M ks cs k v c hc, hrec]
          rw [optIns_node_some M ks cs k v c hc, if_pos hcb]
        · rw [if_neg hcb] at hb
          cases hb

/-- C8 core: a failed optimistic insert leaves the tree exactly as it
was. -/
theorem optIns_false_frame {M : ℕ} : ∀ (n : ℕ) (t : Tree K V), sizeOf t ≤ n →
    ∀ (k : K) (v : V),
    (optIns M t k v).1 = false → (optIns M t k v).2 = t := by
  intro n
  induction n with
  | zero =>
    intro t ht
    cases t <;> simp at ht
  | succ n ihn =>
    intro t ht k v hb
    cases t with
    | leaf es =>
      by_cases hsafe : es.length < M
      · rw [optIns_leaf_eq, if_pos hsafe] at hb
        cases hb
      · rw [optIns_leaf_eq, if_neg hsafe]
    | node ks cs =>
      cases hc : cs[upperIdx ks k]? with
      | none =>
        rw [optIns_node_none M ks cs k v hc]
      | some c =>
        rw [optIns_node_some M ks cs k v c hc] at hb ⊢
        by_cases hcb : (optIns M c k v).1 = true
        · rw [if_pos hcb] at hb
          cases hb
        · rw [if_neg hcb]

theorem insert_fst_eq_insTree {M : ℕ} (t : Tree K V) (k : K) (v : V) :
    (insert M t k v).1 = insTree M t k v := by
  unfold insert
  cases ho : optIns M t k v with
  | mk b t' =>
    cases b with
    | false => rfl
    | true =>
      have hrec := optIns_true_insRec (M := M) (sizeOf t) t le_rfl k v (by rw [ho])
      rw [ho] at hrec
      dsimp only
      unfold insTree
      rw [hrec]

theorem insert_snd_true {M : ℕ} (t : Tree K V) (k : K) (v : V) :
    (insert M t k v).2 = true := by
  unfold insert
  cases ho : optIns M t k v with
  | mk b t' =>
    cases b <;> rfl

/-- Every tree built by a sequence of `insert`s from the fresh tree is
well-formed. -/
theorem built_wf {M : ℕ} (hM : 2 ≤ M) (t : Tree K V) (hb : Built M t) :
    WF M none none t := by
  rcases hb with ⟨l, rfl⟩
  have hstep : ∀ (l : List (K × V)) (acc : Tree K V), WF M none none acc →
      WF M none none (l.foldl (fun acc p => (insert M acc p.1 p.2).1) acc) := by
    intro l
    induction l with
    | nil => intro acc h; exact h
    | cons p rest ih =>
      intro acc h
      rw [List.foldl_cons]
      apply ih
      rw [insert_fst_eq_insTree]
      exact (insTree_spec hM acc p.1 p.2 h).1
  exact hstep l (.leaf []) (WF.leaf (by simp) (by simp) (by simp))

theorem set_getElem?_self : ∀ (l : List (Tree K V)) (i : ℕ) (a : Tree K V),
    l[i]? = some a → l.set i a = l := by
  intro l
  induction l with
  | nil => intro i a h; cases h
  | cons x xs ih =>
    intro i a h
    cases i with
    | zero =>
      rw [List.getElem?_cons_zero] at h
      injection h with h
      rw [List.set_cons_zero, h]
    | succ i =>
      rw [List.getElem?_cons_succ] at h
      rw [List.set_cons_succ, ih i a h]

theorem chainWF_of_mem {M : ℕ} : ∀ (ks : List K) (cs : List (Tree K V)) (lo hi : Option K),
    WFC M lo ks cs hi → ∀ c ∈ cs, ∃ lo' hi', WF M lo' hi' c := by
  intro ks
  induction ks with
  | nil =>
    intro cs lo hi h c hc
    cases h with
    | single hc0 =>
      rcases List.mem_singleton.mp hc with rfl
      exact ⟨lo, hi, hc0⟩
  | cons x ks ih =>
    intro cs lo hi h c hc
    cases h with
    | cons hc0 hrest =>
      rcases List.mem_cons.mp hc with rfl | hc2
      · exact ⟨lo, some x, hc0⟩
      · exact ih _ _ _ hrest c hc2

/-- Locating the key: a pair `(k, s)` stored below a well-formed chain
lives in the very child that the `upper_bound` descent selects. -/
theorem chain_self {M : ℕ} (k : K) {s : Finset V} :
    ∀ (ks : List K) (cs : List (Tree K V)) (lo hi : Option K),
    WFC M lo ks cs hi →
    List.Pairwise (· < ·) ks →
    (∀ x ∈ ks, sbOk lo x ∧ ubOk hi x) →
    (k, s) ∈ cs.flatMap toList →
    ∃ c, cs[upperIdx ks k]? = some c ∧ (k, s) ∈ toList c := by
  intro ks
  induction ks with
  | nil =>
    intro cs lo hi h hp hb hmem
    cases h with
    | single hc0 =>
      rw [List.flatMap_cons, List.flatMap_nil, List.append_nil] at hmem
      exact ⟨_, by rw [upperIdx_nil]; exact List.getElem?_cons_zero, hmem⟩
  | cons x ks ih =>
    intro cs lo hi h hp hb hmem
    cases h with
    | @cons lo hi x ks c0 cs hc0 hrest =>
      rw [List.flatMap_cons] at hmem
      by_cases hxk : x ≤ k
      · have hnotc0 : (k, s) ∉ toList c0 := by
          intro hmem0
          have := (wf_bounds (sizeOf c0) c0 le_rfl lo (some x) hc0 _ hmem0).2
          exact absurd (lt_of_lt_of_le (ubOk_some_iff.mp this) hxk) (lt_irrefl k)
        have hmem2 : (k, s) ∈ cs.flatMap toList := by
          rcases List.mem_append.mp hmem with h1 | h1
          · exact absurd h1 hnotc0
          · exact h1
        have hb' : ∀ y ∈ ks, sbOk (some x) y ∧ ubOk hi y := by
          intro y hy
          exact ⟨sbOk_some_iff.mpr ((List.pairwise_cons.mp hp).1 y hy),
            (hb y (List.mem_cons_of_mem x hy)).2⟩
        rcases ih cs (some x) hi hrest (List.pairwise_cons.mp hp).2 hb' hmem2 with ⟨c, hc, hmc⟩
        refine ⟨c, ?_, hmc⟩
        rw [upperIdx_cons_le hxk, List.getElem?_cons_succ]
        exact hc
      · have hkx : k < x := not_le.mp hxk
        have hb' : ∀ y ∈ ks, sbOk (some x) y ∧ ubOk hi y := by
          intro y hy
          exact ⟨sbOk_some_iff.mpr ((List.pairwise_cons.mp hp).1 y hy),
            (hb y (List.mem_cons_of_mem x hy)).2⟩
        have hnotrest : (k, s) ∉ cs.flatMap toList := by
          intro hmem0
          have := (chain_bounds ks cs (some x) hi hrest hb' (List.pairwise_cons.mp hp).2
            (fun c' hc' lo' hi' h' => wf_bounds (sizeOf c') c' le_rfl lo' hi' h') _ hmem0).1
          exact absurd (lt_of_lt_of_le hkx (lbOk_some_iff.mp this)) (lt_irrefl k)
        have hmem2 : (k, s) ∈ toList c0 := by
          rcases List.mem_append.mp hmem with h1 | h1
          · exact h1
          · exact absurd h1 hnotrest
        refine ⟨c0, ?_, hmem2⟩
        rw [upperIdx_cons_gt hxk]
        exact List.getElem?_cons_zero

/-- Inserting a pair that is already stored changes nothing at all. -/
theorem insRec_self {M : ℕ} : ∀ (n : ℕ) (t : Tree K V), sizeOf t ≤ n →
    ∀ (lo hi : Option K) (k : K) (s : Finset V) (v : V), WF M lo hi t →
    (k, s) ∈ toList t → v ∈ s → insRec M t k v = (t, none) := by
  intro n
  induction n with
  | zero =>
    intro t ht
    cases t <;> simp at ht
  | succ n ihn =>
    intro t ht lo hi k s v hwf hmem hv
    cases hwf with
    | @leaf lo hi es hlen hsort hbnd =>
      rw [toList_leaf] at hmem
      rw [insRec_leaf_eq]
      have heq : insLeaf es k v = es := by
        rw [insLeaf_eq_insEs]
        exact insEs_self hsort hmem hv
      rw [heq, if_neg (by omega)]
    | @node lo hi ks cs hlen hp hbnd hwfc =>
      rw [toList_node] at hmem
      rcases chain_self k ks cs lo hi hwfc hp hbnd hmem with ⟨c, hc, hmc⟩
      have hsz : sizeOf c < sizeOf (Tree.node ks cs : Tree K V) := by
        have := List.sizeOf_lt_of_mem (List.getElem?_mem hc)
        simp only [Tree.node.sizeOf_spec]
        omega
      rcases chainWF_of_mem (M := M) ks cs lo hi hwfc c (List.getElem?_mem hc) with ⟨lo', hi', h'⟩
      have hrec := ihn c (by omega) lo' hi' k s v h' hmc hv
      rw [insRec_node_some M ks cs k v c hc, hrec]
      dsimp only
      rw [set_getElem?_self cs (upperIdx ks k) c hc]

/-- C9 core for the B+ tree: re-inserting an already stored pair returns
the identical tree. -/
theorem insTree_idem {M : ℕ} (hM : 2 ≤ M) (t : Tree K V) (k : K) (v : V)
    (h : WF M none none t) :
    insTree M (insTree M t k v) k v = insTree M t k v := by
  rcases insTree_spec hM t k v h with ⟨h1, htl⟩
  rcases insEs_mem_self (toList t) k v with ⟨s, hmem, hv⟩
  have hmem2 : (k, s) ∈ toList (insTree M t k v) := by
    rw [htl]
    exact hmem
  have hrec := insRec_self (M := M) (sizeOf (insTree M t k v)) _ le_rfl none none k s v
    h1 hmem2 hv
  have hgoal : insTree M (insTree M t k v) k v =
      match insRec M (insTree M t k v) k v with
      | (t', none) => t'
      | (t', some (sib, pk)) => .node [pk] [t', sib] := rfl
  rw [hgoal, hrec]

theorem search_leaf_eq (es : List (K × Finset V)) (k : K) :
    search (.leaf es : Tree K V) k =
      (match es[lowerIdx (es.map Prod.fst) k]? with
       | some e => if e.1 = k then e.2 else (∅ : Finset V)
       | none => ∅) := by
  simp only [search]

theorem search_node_some (ks : List K) (cs : List (Tree K V)) (k : K)
    (c : Tree K V) (hc : cs[upperIdx ks k]? = some c) :
    search (.node ks cs : Tree K V) k = search c k := by
  simp only [search]
  split
  · rename_i c' heq
    rw [hc] at heq
    injection heq with h
    subst h
    rfl
  · rename_i heq
    rw [hc] at heq
    cases heq

theorem findE_nil (k : K) : findE ([] : List (K × Finset V)) k = ∅ := rfl

theorem findE_cons (e : K × Finset V) (es : List (K × Finset V)) (k : K) :
    findE (e :: es) k = if e.1 = k then e.2 else findE es k := by
  unfold findE
  rw [List.find?_cons]
  by_cases heq : e.1 = k
  · simp [heq]
  · simp [heq]

theorem findE_eq_empty {es : List (K × Finset V)} {k : K}
    (h : ∀ b ∈ es, ¬ b.1 = k) : findE es k = ∅ := by
  unfold findE
  rw [List.find?_eq_none.mpr (fun b hb => by simpa using h b hb)]

theorem findE_append_left {A : List (K × Finset V)} {k : K}
    (hA : ∀ a ∈ A, ¬ a.1 = k) (B : List (K × Finset V)) :
    findE (A ++ B) k = findE B k := by
  unfold findE
  have hAnone : List.find? (fun e => decide (e.1 = k)) A = none :=
    List.find?_eq_none.mpr (fun a ha => by simpa using hA a ha)
  rw [List.find?_append, hAnone, Option.none_or]

theorem findE_append_right {B : List (K × Finset V)} {k : K}
    (hB : ∀ b ∈ B, ¬ b.1 = k) (A : List (K × Finset V)) :
    findE (A ++ B) k = findE A k := by
  unfold findE
  have hBnone : List.find? (fun e => decide (e.1 = k)) B = none :=
    List.find?_eq_none.mpr (fun b hb => by simpa using hB b hb)
  rw [List.find?_append, hBnone, Option.or_none]

theorem searchLeaf_eq_findE (es : List (K × Finset V)) (k : K)
    (hsort : List.Pairwise (· < ·) (es.map Prod.fst)) :
    (match es[lowerIdx (es.map Prod.fst) k]? with
     | some e => if e.1 = k then e.2 else (∅ : Finset V)
     | none => ∅) = findE es k := by
  induction es with
  | nil => rfl
  | cons e es ih =>
    rw [List.map_cons, List.pairwise_cons] at hsort
    by_cases hlt : e.1 < k
    · have hpos : lowerIdx ((e :: es).map Prod.fst) k = lowerIdx (es.map Prod.fst) k + 1 := by
        rw [List.map_cons]
        exact lowerIdx_cons_lt hlt _
      rw [hpos, List.getElem?_cons_succ, findE_cons, if_neg (ne_of_lt hlt)]
      exact ih hsort.2
    · have hpos : lowerIdx ((e :: es).map Prod.fst) k = 0 := by
        rw [List.map_cons]
        exact lowerIdx_cons_ge hlt _
      rw [hpos, List.getElem?_cons_zero]
      by_cases heq : e.1 = k
      · rw [findE_cons, if_pos heq]
        dsimp only
        rw [if_pos heq]
      · have hgt : k < e.1 := lt_of_le_of_ne (not_lt.mp hlt) (Ne.symm heq)
        rw [findE_cons, if_neg heq]
        dsimp only
        rw [if_neg heq]
        rw [findE_eq_empty]
        intro b hb
        rcases List.mem_map.mp (List.mem_map_of_mem Prod.fst hb) with _
        have : e.1 < b.1 := hsort.1 b.1 (List.mem_map_of_mem Prod.fst hb)
        exact ne_of_gt (lt_trans hgt this)

theorem chain_search {M : ℕ} (k : K) :
    ∀ (ks : List K) (cs : List (Tree K V)) (lo hi : Option K),
    WFC M lo ks cs hi →
    (∀ x ∈ ks, sbOk lo x ∧ ubOk hi x) →
    List.Pairwise (· < ·) ks →
    (∀ c ∈ cs, search c k = findE (toList c) k) →
    ∃ c, cs[upperIdx ks k]? = some c ∧ search c k = findE (cs.flatMap toList) k := by
  intro ks
  induction ks with
  | nil =>
    intro cs lo hi h hb hp IH
    cases h with
    | single hc0 =>
      refine ⟨_, by rw [upperIdx_nil]; exact List.getElem?_cons_zero, ?_⟩
      rw [List.flatMap_cons, List.flatMap_nil, List.append_nil]
      exact IH _ (List.mem_cons_self _ _)
  | cons x ks ih =>
    intro cs lo hi h hb hp IH
    cases h with
    | @cons lo hi x ks c0 cs hc0 hrest =>
      rw [List.flatMap_cons]
      by_cases hxk : x ≤ k
      · have hb' : ∀ y ∈ ks, sbOk (some x) y ∧ ubOk hi y := by
          intro y hy
          exact ⟨sbOk_some_iff.mpr ((List.pairwise_cons.mp hp).1 y hy),
            (hb y (List.mem_cons_of_mem x hy)).2⟩
        rcases ih cs (some x) hi hrest hb' (List.pairwise_cons.mp hp).2
          (fun c hc => IH c (List.mem_cons_of_mem _ hc)) with ⟨c, hc, heq⟩
        refine ⟨c, ?_, ?_⟩
        · rw [upperIdx_cons_le hxk, List.getElem?_cons_succ]
          exact hc
        · rw [findE_append_left, heq]
          intro a ha
          have := (wf_bounds (sizeOf c0) c0 le_rfl lo (some x) hc0 a ha).2
          exact ne_of_lt (lt_of_lt_of_le (ubOk_some_iff.mp this) hxk)
      · have hkx : k < x := not_le.mp hxk
        have hb' : ∀ y ∈ ks, sbOk (some x) y ∧ ubOk hi y := by
          intro y hy
          exact ⟨sbOk_some_iff.mpr ((List.pairwise_cons.mp hp).1 y hy),
            (hb y (List.mem_cons_of_mem x hy)).2⟩
        refine ⟨c0, ?_, ?_⟩
        · rw [upperIdx_cons_gt hxk]
          exact List.getElem?_cons_zero
        · rw [findE_append_right, IH c0 (List.mem_cons_self _ _)]
          intro b hb2
          have := (chain_bounds ks cs (some x) hi hrest hb' (List.pairwise_cons.mp hp).2
            (fun c' hc' lo' hi' h' => wf_bounds (sizeOf c') c' le_rfl lo' hi' h') b hb2).1
          exact ne_of_gt (lt_of_lt_of_le hkx (lbOk_some_iff.mp this))

/-- `search` on a well-formed subtree reads off the abstract contents. -/
theorem search_spec {M : ℕ} : ∀ (n : ℕ) (t : Tree K V), sizeOf t ≤ n →
    ∀ (lo hi : Option K) (k : K), WF M lo hi t →
    search t k = findE (toList t) k := by
  intro n
  induction n with
  | zero =>
    intro t ht
    cases t <;> simp at ht
  | succ n ihn =>
    intro t ht lo hi k hwf
    cases hwf with
    | @leaf lo hi es hlen hsort hbnd =>
      rw [search_leaf_eq, toList_leaf]
      exact searchLeaf_eq_findE es k hsort
    | @node lo hi ks cs hlen hp hbnd hwfc =>
      have hIH : ∀ c ∈ cs, search c k = findE (toList c) k := by
        intro c hc
        rcases chainWF_of_mem (M := M) ks cs lo hi hwfc c hc with ⟨lo', hi', h'⟩
        have hsz : sizeOf c < sizeOf (Tree.node ks cs : Tree K V) := by
          have := List.sizeOf_lt_of_mem hc
          simp only [Tree.node.sizeOf_spec]
          omega
        exact ihn c (by omega) lo' hi' k h'
      rcases chain_search k ks cs lo hi hwfc hbnd hp hIH with ⟨c, hc, heq⟩
      rw [search_node_some ks cs k c hc, toList_node]
      exact heq

theorem chainFrom_leaf (es : List (K × Finset V)) (k : K) :
    chainFrom (.leaf es : Tree K V) k = [es] := by
  simp only [chainFrom]

theorem chainFrom_node_some (ks : List K) (cs : List (Tree K V)) (k : K)
    (c : Tree K V) (hc : cs[upperIdx ks k]? = some c) :
    chainFrom (.node ks cs : Tree K V) k =
      chainFrom c k ++ (cs.drop (upperIdx ks k + 1)).flatMap leaves := by
  simp only [chainFrom]
  split
  · rename_i heq
    rw [hc] at heq
    cases heq
  · rename_i c' heq
    rw [hc] at heq
    injection heq with h
    subst h
    rfl

theorem mem_leaves_mem_toList {t : Tree K V} {es : List (K × Finset V)} {e : K × Finset V}
    (hes : es ∈ leaves t) (he : e ∈ es) : e ∈ toList t := by
  rw [toList_eq_leaves_join]
  exact List.mem_flatMap.mpr ⟨es, hes, he⟩

theorem chain_chainFrom {M : ℕ} (k : K) :
    ∀ (ks : List K) (cs : List (Tree K V)) (lo hi : Option K),
    WFC M lo ks cs hi →
    (∀ x ∈ ks, sbOk lo x ∧ ubOk hi x) →
    List.Pairwise (· < ·) ks →
    (∀ c ∈ cs, ∃ P, leaves c = P ++ chainFrom c k ∧ ∀ es ∈ P, ∀ e ∈ es, e.1 < k) →
    ∃ c P, cs[upperIdx ks k]? = some c ∧
      cs.flatMap leaves = P ++ (chainFrom c k ++ (cs.drop (upperIdx ks k + 1)).flatMap leaves) ∧
      ∀ es ∈ P, ∀ e ∈ es, e.1 < k := by
  intro ks
  induction ks with
  | nil =>
    intro cs lo hi h hb hp IH
    cases h with
    | single hc0 =>
      rename_i c0
      rcases IH c0 (List.mem_cons_self _ _) with ⟨P0, hdec, hP0⟩
      refine ⟨c0, P0, by rw [upperIdx_nil]; exact List.getElem?_cons_zero, ?_, hP0⟩
      rw [upperIdx_nil]
      simp only [List.flatMap_cons, List.flatMap_nil, List.append_nil, List.drop_succ_cons,
        List.drop_nil]
      rw [hdec]
  | cons x ks ih =>
    intro cs lo hi h hb hp IH
    cases h with
    | @cons lo hi x ks c0 cs hc0 hrest =>
      by_cases hxk : x ≤ k
      · have hb' : ∀ y ∈ ks, sbOk (some x) y ∧ ubOk hi y := by
          intro y hy
          exact ⟨sbOk_some_iff.mpr ((List.pairwise_cons.mp hp).1 y hy),
            (hb y (List.mem_cons_of_mem x hy)).2⟩
        rcases ih cs (some x) hi hrest hb' (List.pairwise_cons.mp hp).2
          (fun c hc => IH c (List.mem_cons_of_mem _ hc)) with ⟨c, P', hcg, heq, hP'⟩
        refine ⟨c, leaves c0 ++ P', ?_, ?_, ?_⟩
        · rw [upperIdx_cons_le hxk, List.getElem?_cons_succ]
          exact hcg
        · rw [upperIdx_cons_le hxk, List.flatMap_cons, List.drop_succ_cons, heq,
            List.append_assoc]
        · intro es hes e he
          rcases List.mem_append.mp hes with h1 | h1
          · have := (wf_bounds (sizeOf c0) c0 le_rfl lo (some x) hc0 e
              (mem_leaves_mem_toList h1 he)).2
            exact lt_of_lt_of_le (ubOk_some_iff.mp this) hxk
          · exact hP' es h1 e he
      · rcases IH c0 (List.mem_cons_self _ _) with ⟨P0, hdec, hP0⟩
        refine ⟨c0, P0, ?_, ?_, hP0⟩
        · rw [upperIdx_cons_gt hxk]
          exact List.getElem?_cons_zero
        · rw [upperIdx_cons_gt hxk, List.flatMap_cons, List.drop_succ_cons, List.drop_zero,
            hdec, List.append_assoc]

/-- The leaves of a well-formed subtree split into a skipped prefix, all
of whose entries have keys `< k`, followed by the chain suffix that the
descent for `k` reaches. -/
theorem chain_leaves_decomp {M : ℕ} (k : K) : ∀ (n : ℕ) (t : Tree K V), sizeOf t ≤ n →
    ∀ (lo hi : Option K), WF M lo hi t →
    ∃ P, leaves t = P ++ chainFrom t k ∧ ∀ es ∈ P, ∀ e ∈ es, e.1 < k := by
  intro n
  induction n with
  | zero =>
    intro t ht
    cases t <;> simp at ht
  | succ n ihn =>
    intro t ht lo hi hwf
    cases hwf with
    | @leaf lo hi es hlen hsort hbnd =>
      refine ⟨[], ?_, ?_⟩
      · rw [leaves_leaf, chainFrom_leaf, List.nil_append]
      · intro es hes
        cases hes
    | @node lo hi ks cs hlen hp hbnd hwfc =>
      have hIH : ∀ c ∈ cs, ∃ P, leaves c = P ++ chainFrom c k ∧
          ∀ es ∈ P, ∀ e ∈ es, e.1 < k := by
        intro c hc
        rcases chainWF_of_mem (M := M) ks cs lo hi hwfc c hc with ⟨lo', hi', h'⟩
        have hsz : sizeOf c < sizeOf (Tree.node ks cs : Tree K V) := by
          have := List.sizeOf_lt_of_mem hc
          simp only [Tree.node.sizeOf_spec]
          omega
        exact ihn c (by omega) lo' hi' h'
      rcases chain_chainFrom k ks cs lo hi hwfc hbnd hp hIH with ⟨c, P, hc, heq, hP⟩
      refine ⟨P, ?_, hP⟩
      rw [leaves_node, heq, chainFrom_node_some ks cs k c hc]

theorem takeUntil_eq (hi : K) : ∀ (l : List (K × Finset V)),
    takeUntil hi l = (l.takeWhile (fun e => decide (e.1 < hi)),
      !(l.all (fun e => decide (e.1 < hi)))) := by
  intro l
  induction l with
  | nil => rfl
  | cons e es ih =>
    by_cases hge : e.1 ≥ hi
    · have : ¬ e.1 < hi := not_lt.mpr hge
      simp [takeUntil, hge, List.takeWhile_cons, List.all_cons, this]
    · have hlt : e.1 < hi := not_le.mp hge
      have h1 : takeUntil hi (e :: es) = (e :: (takeUntil hi es).1, (takeUntil hi es).2) := by
        simp [takeUntil, hge]
      have h2 : decide (e.1 < hi) = true := by simp [hlt]
      rw [h1, ih, List.takeWhile_cons, List.all_cons, if_pos h2, h2, Bool.true_and]

theorem drop_length_takeWhile {α : Type} (p : α → Bool) : ∀ (l : List α),
    l.drop (l.takeWhile p).length = l.dropWhile p := by
  intro l
  induction l with
  | nil => rfl
  | cons a l ih =>
    rw [List.takeWhile_cons, List.dropWhile_cons]
    by_cases hp : p a = true
    · rw [if_pos hp, if_pos hp, List.length_cons, List.drop_succ_cons, ih]
    · rw [if_neg hp, if_neg hp, List.length_nil, List.drop_zero]

theorem drop_lowerIdx (es : List (K × Finset V)) (lo : K) :
    es.drop (lowerIdx (es.map Prod.fst) lo) =
      es.dropWhile (fun e => decide (e.1 < lo)) := by
  unfold lowerIdx
  rw [List.takeWhile_map, List.length_map]
  exact drop_length_takeWhile _ es

theorem dropWhile_lt_eq_filter (c : K) : ∀ (l : List (K × Finset V)),
    List.Pairwise (· < ·) (l.map Prod.fst) →
    l.dropWhile (fun e => decide (e.1 < c)) = l.filter (fun e => !decide (e.1 < c)) := by
  intro l
  induction l with
  | nil => intro _; rfl
  | cons e es ih =>
    intro hsort
    rw [List.map_cons, List.pairwise_cons] at hsort
    rw [List.dropWhile_cons, List.filter_cons]
    by_cases hlt : e.1 < c
    · rw [if_pos (by simp [hlt]), if_neg (by simp [hlt])]
      exact ih hsort.2
    · rw [if_neg (by simp [hlt]), if_pos (by simp [hlt])]
      congr 1
      symm
      rw [List.filter_eq_self]
      intro b hb
      have hgt : e.1 < b.1 := hsort.1 b.1 (List.mem_map_of_mem Prod.fst hb)
      have : ¬ b.1 < c := fun hcon => hlt (lt_trans hgt hcon)
      simp [this]

theorem takeWhile_lt_eq_filter (c : K) : ∀ (l : List (K × Finset V)),
    List.Pairwise (· < ·) (l.map Prod.fst) →
    l.takeWhile (fun e => decide (e.1 < c)) = l.filter (fun e => decide (e.1 < c)) := by
  intro l
  induction l with
  | nil => intro _; rfl
  | cons e es ih =>
    intro hsort
    rw [List.map_cons, List.pairwise_cons] at hsort
    rw [List.takeWhile_cons, List.filter_cons]
    by_cases hlt : e.1 < c
    · rw [if_pos (by simp [hlt]), if_pos (by simp [hlt])]
      rw [ih hsort.2]
    · rw [if_neg (by simp [hlt]), if_neg (by simp [hlt])]
      symm
      rw [List.filter_eq_nil_iff]
      intro b hb
      have hgt : e.1 < b.1 := hsort.1 b.1 (List.mem_map_of_mem Prod.fst hb)
      have : ¬ b.1 < c := fun hcon => hlt (lt_trans hgt hcon)
      simp [this]

theorem scanChain_eq_filter (lo hi : K) : ∀ (chain : List (List (K × Finset V))),
    List.Pairwise (· < ·) ((chain.flatMap id).map Prod.fst) →
    scanChain lo hi chain =
      (chain.flatMap id).filter (fun e => decide (lo ≤ e.1) && decide (e.1 < hi)) := by
  intro chain
  induction chain with
  | nil => intro _; rfl
  | cons es rest ih =>
    intro hsort
    rw [List.flatMap_cons] at hsort ⊢
    rw [List.map_append, List.pairwise_append] at hsort
    have hse : List.Pairwise (· < ·) (es.map Prod.fst) := by
      simpa using hsort.1
    have hsr : List.Pairwise (· < ·) ((rest.flatMap id).map Prod.fst) := hsort.2.1
    have hcross : ∀ a ∈ es, ∀ b ∈ rest.flatMap id, a.1 < b.1 := by
      intro a ha b hb2
      exact hsort.2.2 a.1 (by simpa using List.mem_map_of_mem Prod.fst ha) b.1
        (List.mem_map_of_mem Prod.fst hb2)
    have hD : es.drop (lowerIdx (es.map Prod.fst) lo) =
        es.filter (fun e => !decide (e.1 < lo)) := by
      rw [drop_lowerIdx]
      exact dropWhile_lt_eq_filter lo es hse
    have hDsort : List.Pairwise (· < ·)
        ((es.filter (fun e => !decide (e.1 < lo))).map Prod.fst) :=
      List.Pairwise.sublist ((List.filter_sublist _).map Prod.fst) hse
    have hDboth : (es.filter (fun e => !decide (e.1 < lo))).filter
          (fun e => decide (e.1 < hi)) =
        es.filter (fun e => decide (lo ≤ e.1) && decide (e.1 < hi)) := by
      rw [List.filter_filter]
      apply List.filter_congr
      intro e he
      by_cases h1 : e.1 < lo
      · have h2 : ¬ lo ≤ e.1 := not_le.mpr h1
        simp [h1, h2]
      · have h2 : lo ≤ e.1 := not_lt.mp h1
        simp [h1, h2]
    show (let r := takeUntil hi (es.drop (lowerIdx (es.map Prod.fst) lo))
      if r.2 then r.1 else r.1 ++ scanChain lo hi rest) = _
    rw [hD, takeUntil_eq]
    by_cases hall : (es.filter (fun e => !decide (e.1 < lo))).all
        (fun e => decide (e.1 < hi)) = true
    · rw [hall]
      show (es.filter (fun e => !decide (e.1 < lo))).takeWhile (fun e => decide (e.1 < hi)) ++
          scanChain lo hi rest = _
      rw [takeWhile_lt_eq_filter hi _ hDsort, hDboth, ih hsr, List.filter_append, id_eq]
    · have hall2 : (es.filter (fun e => !decide (e.1 < lo))).all
          (fun e => decide (e.1 < hi)) = false := by
        revert hall
        cases (es.filter (fun e => !decide (e.1 < lo))).all (fun e => decide (e.1 < hi)) <;> simp
      rw [hall2]
      show (es.filter (fun e => !decide (e.1 < lo))).takeWhile (fun e => decide (e.1 < hi)) = _
      rw [takeWhile_lt_eq_filter hi _ hDsort, hDboth, List.filter_append]
      rcases List.all_eq_false.mp hall2 with ⟨d, hd, hdge⟩
      have hdes : d ∈ es := (List.mem_filter.mp hd).1
      have hdge2 : hi ≤ d.1 := not_lt.mp (by simpa using hdge)
      have hrestnil : (rest.flatMap id).filter
          (fun e => decide (lo ≤ e.1) && decide (e.1 < hi)) = [] := by
        rw [List.filter_eq_nil_iff]
        intro b hb2
        have : d.1 < b.1 := hcross d hdes b hb2
        have : ¬ b.1 < hi := fun hcon => absurd (lt_trans this hcon) (not_lt.mpr hdge2)
        simp [this]
      rw [hrestnil, List.append_nil, id_eq]

/-- `range_search` on a well-formed tree returns exactly the entries with
keys in `[lo, hi)`. -/
theorem range_spec {M : ℕ} (t : Tree K V) (lo hi : K) (h : WF M none none t)
    (hlh : lo < hi) :
    rangeSearch t lo hi =
      (toList t).filter (fun e => decide (lo ≤ e.1) && decide (e.1 < hi)) := by
  unfold rangeSearch
  rw [if_neg (not_le.mpr hlh)]
  rcases chain_leaves_decomp lo (sizeOf t) t le_rfl none none h with ⟨P, hdec, hP⟩
  have hsorted : List.Pairwise (· < ·) ((toList t).map Prod.fst) :=
    wf_sorted (sizeOf t) t le_rfl none none h
  have hflat : toList t = P.flatMap id ++ (chainFrom t lo).flatMap id := by
    rw [toList_eq_leaves_join, hdec, List.flatMap_append]
  have hsorted2 : List.Pairwise (· < ·) (((chainFrom t lo).flatMap id).map Prod.fst) := by
    rw [hflat, List.map_append, List.pairwise_append] at hsorted
    exact hsorted.2.1
  rw [scanChain_eq_filter lo hi _ hsorted2, hflat, List.filter_append]
  have hPfilter : (P.flatMap id).filter
      (fun e => decide (lo ≤ e.1) && decide (e.1 < hi)) = [] := by
    rw [List.filter_eq_nil_iff]
    intro e he
    rcases List.mem_flatMap.mp he with ⟨es, hes, hees⟩
    have : e.1 < lo := hP es hes e hees
    have h2 : ¬ lo ≤ e.1 := not_le.mpr this
    simp [h2]
  rw [hPfilter, List.nil_append]

/- ------------------- descent / failure lemmas ------------------- -/

theorem reachLeaf_leaf (es : List (K × Finset V)) (k : K) :
    reachLeaf (.leaf es : Tree K V) k = some es := by
  simp only [reachLeaf]

theorem reachLeaf_node_some (ks : List K) (cs : List (Tree K V)) (k : K)
    (c : Tree K V) (hc : cs[upperIdx ks k]? = some c) :
    reachLeaf (.node ks cs : Tree K V) k = reachLeaf c k := by
  simp only [reachLeaf]
  split
  · rename_i c' heq
    rw [hc] at heq
    injection heq with h
    subst h
    rfl
  · rename_i heq
    rw [hc] at heq
    cases heq

/-- When the descent reaches a leaf that is not safe for insert
(`is_safe_for_insert` fails: its entry count is not below `M`), the
optimistic insert reports failure. -/
theorem optIns_full_leaf_false {M : ℕ} : ∀ (n : ℕ) (t : Tree K V), sizeOf t ≤ n →
    ∀ (k : K) (v : V) (es : List (K × Finset V)),
    reachLeaf t k = some es → ¬ es.length < M → (optIns M t k v).1 = false := by
  intro n
  induction n with
  | zero =>
    intro t ht
    cases t <;> simp at ht
  | succ n ihn =>
    intro t ht k v es hr hfull
    cases t with
    | leaf es0 =>
      rw [reachLeaf_leaf] at hr
      injection hr with h
      subst h
      rw [optIns_leaf_eq, if_neg hfull]
    | node ks cs =>
      cases hc : cs[upperIdx ks k]? with
      | none => rw [optIns_node_none M ks cs k v hc]
      | some c =>
        rw [reachLeaf_node_some ks cs k c hc] at hr
        have hsz : sizeOf c < sizeOf (Tree.node ks cs : Tree K V) := by
          have := List.sizeOf_lt_of_mem (List.getElem?_mem hc)
          simp only [Tree.node.sizeOf_spec]
          omega
        have hcb := ihn c (by omega) k v es hr hfull
        rw [optIns_node_some M ks cs k v c hc,
          if_neg (by rw [hcb]; exact Bool.false_ne_true)]

theorem leafSplits_leaf (M : ℕ) (es : List (K × Finset V)) (k : K) (v : V) :
    leafSplits M (.leaf es : Tree K V) k v =
      if (insLeaf es k v).length > M then 1 else 0 := by
  simp only [leafSplits]

end BPT

/- ------------------- claims C1, C8 ------------------- -/

/-- C1 counterexample: on the concurrent B+ tree the claimed return
convention fails.  In the reachable state holding the single entry
`(1, {2})`, the pair `(1, 2)` is already present (`search` reports `2`
under key `1`), yet `insert 1 2` returns `true` — `BPlusTree::insert`
returns `true` unconditionally instead of `false` for an
already-present pair. -/
theorem C1_counterexample :
    2 ∈ BPT.search (BPT.Tree.leaf [(1, {2})] : BPT.Tree ℕ ℕ) 1 ∧
    (BPT.insert 4 (BPT.Tree.leaf [(1, {2})] : BPT.Tree ℕ ℕ) 1 2).2 = true ∧
    BPT.Built 4 (BPT.Tree.leaf [(1, {2})] : BPT.Tree ℕ ℕ) := by
  have h0 : BPT.optIns 4 (BPT.Tree.leaf [] : BPT.Tree ℕ ℕ) 1 2 =
      (true, .leaf [(1, {2})]) := by
    rw [BPT.optIns_leaf_eq]
    rfl
  have h1 : BPT.insert 4 (BPT.Tree.leaf [] : BPT.Tree ℕ ℕ) 1 2 =
      (.leaf [(1, {2})], true) := by
    unfold BPT.insert
    rw [h0]
  refine ⟨?_, BPT.insert_snd_true (M := 4) _ 1 2, ⟨[(1, 2)], ?_⟩⟩
  · rw [BPT.search_leaf_eq]
    decide
  · show BPT.Tree.leaf [(1, {2})] = (BPT.insert 4 (BPT.Tree.leaf []) 1 2).1
    rw [h1]

/-- C1 (amended): `insert(k, v)` returns `true` exactly when it added
something new on the sharded hash index and on the lock-free skip list;
the concurrent B+ tree's `insert`, however, always returns `true`, even
when the pair `(k, v)` was already present. -/
theorem C1_amended {K V : Type} [LinearOrder K] [DecidableEq K] [DecidableEq V] :
    (∀ (m : Inv.Map K V) (k : K) (v : V),
      (Inv.insert m k v).2 = true ↔ v ∉ Inv.search m k) ∧
    (∀ (s : SL.Chain K V) (k : K) (v : V),
      (SL.insert s k v).1 = true ↔ v ∉ (SL.search s k).1) ∧
    (∀ (M : ℕ) (t : BPT.Tree K V) (k : K) (v : V),
      (BPT.insert M t k v).2 = true) := by
  refine ⟨?_, ?_, ?_⟩
  · intro m k v
    rw [Inv.insert_snd, decide_eq_true_eq]
  · intro s k v
    rw [SL.insert_fst, decide_eq_true_eq]
  · intro M t k v
    exact BPT.insert_snd_true t k v

/-- Witness for `C1_amended` on concrete one-element states of all three
variants. -/
theorem C1_witness :
    ((Inv.insert (fun _ => (none : Option (Finset ℕ))) 1 2).2 = true ↔
      2 ∉ Inv.search (fun _ => (none : Option (Finset ℕ))) 1) ∧
    ((SL.insert ([] : SL.Chain ℕ ℕ) 1 2).1 = true ↔
      2 ∉ (SL.search ([] : SL.Chain ℕ ℕ) 1).1) ∧
    (BPT.insert 4 (BPT.Tree.leaf [(1, {2})] : BPT.Tree ℕ ℕ) 1 2).2 = true :=
  ⟨(C1_amended (K := ℕ) (V := ℕ)).1 (fun _ => none) 1 2,
   (C1_amended (K := ℕ) (V := ℕ)).2.1 [] 1 2,
   (C1_amended (K := ℕ) (V := ℕ)).2.2 4 (BPT.Tree.leaf [(1, {2})]) 1 2⟩

/-- C8: when the optimistic insert's descent reaches a leaf that is not
safe for insert (its key count is not strictly below the leaf capacity
`M`), it returns failure and the tree is exactly as before the call —
and `BPlusTree::insert` then falls back to the pessimistic insert. -/
theorem C8_optimistic_failure_no_mutation {K V : Type} [LinearOrder K] [DecidableEq V]
    (M : ℕ) (t : BPT.Tree K V) (k : K) (v : V) (es : List (K × Finset V))
    (hr : BPT.reachLeaf t k = some es) (hfull : ¬ es.length < M) :
    (BPT.optIns M t k v).1 = false ∧ (BPT.optIns M t k v).2 = t ∧
      BPT.insert M t k v = (BPT.insTree M t k v, true) := by
  have h1 := BPT.optIns_full_leaf_false (M := M) (sizeOf t) t le_rfl k v es hr hfull
  refine ⟨h1, BPT.optIns_false_frame (sizeOf t) t le_rfl k v h1, ?_⟩
  unfold BPT.insert
  cases ho : BPT.optIns M t k v with
  | mk b t' =>
    rw [ho] at h1
    cases b with
    | false => rfl
    | true => simp at h1

/-- Witness for `C8_optimistic_failure_no_mutation`: a full leaf of four
entries at order 4 rejects the optimistic insert of key 5 unchanged. -/
theorem C8_witness :
    (BPT.optIns 4 (BPT.Tree.leaf [(1, {1}), (2, {1}), (3, {1}), (4, {1})] :
        BPT.Tree ℕ ℕ) 5 9).1 = false ∧
    (BPT.optIns 4 (BPT.Tree.leaf [(1, {1}), (2, {1}), (3, {1}), (4, {1})] :
        BPT.Tree ℕ ℕ) 5 9).2 =
      BPT.Tree.leaf [(1, {1}), (2, {1}), (3, {1}), (4, {1})] ∧
    BPT.insert 4 (BPT.Tree.leaf [(1, {1}), (2, {1}), (3, {1}), (4, {1})] :
        BPT.Tree ℕ ℕ) 5 9 =
      (BPT.insTree 4 (BPT.Tree.leaf [(1, {1}), (2, {1}), (3, {1}), (4, {1})]) 5 9, true) :=
  C8_optimistic_failure_no_mutation 4 _ 5 9 [(1, {1}), (2, {1}), (3, {1}), (4, {1})]
    (BPT.reachLeaf_leaf _ 5) (by decide)

/- ------------------- claims C4, C9 ------------------- -/

/-- C4: on a B+ tree built by any sequence of inserts, `range_search`
with `lo < hi` returns exactly the entries of the tree with keys in
`[lo, hi)` — each such key with its full value set, no key outside the
interval — in strictly ascending key order. -/
theorem C4_range_search {K V : Type} [LinearOrder K] [DecidableEq V]
    (M : ℕ) (hM : 2 ≤ M) (t : BPT.Tree K V) (hb : BPT.Built M t) (lo hi : K)
    (hlh : lo < hi) :
    BPT.rangeSearch t lo hi =
      (BPT.toList t).filter (fun e => decide (lo ≤ e.1) && decide (e.1 < hi)) ∧
    List.Pairwise (· < ·) ((BPT.rangeSearch t lo hi).map Prod.fst) ∧
    ∀ p : K × Finset V, p ∈ BPT.rangeSearch t lo hi ↔
      (lo ≤ p.1 ∧ p.1 < hi ∧ p ∈ BPT.toList t) := by
  have hwf := BPT.built_wf hM t hb
  have hfil := BPT.range_spec t lo hi hwf hlh
  have hsorted := BPT.wf_sorted (M := M) (sizeOf t) t le_rfl none none hwf
  refine ⟨hfil, ?_, ?_⟩
  · rw [hfil]
    exact List.Pairwise.sublist ((List.filter_sublist _).map Prod.fst) hsorted
  · intro p
    rw [hfil, List.mem_filter]
    constructor
    · rintro ⟨hmem, hcond⟩
      rw [Bool.and_eq_true, decide_eq_true_eq, decide_eq_true_eq] at hcond
      exact ⟨hcond.1, hcond.2, hmem⟩
    · rintro ⟨h1, h2, h3⟩
      refine ⟨h3, ?_⟩
      rw [Bool.and_eq_true, decide_eq_true_eq, decide_eq_true_eq]
      exact ⟨h1, h2⟩

/-- Witness for `C4_range_search`: the tree built from the inserts
`(1,10), (2,20), (5,50)` at order 4, queried on the range `[1, 3)`. -/
theorem C4_witness :
    (BPT.rangeSearch (([(1, 10), (2, 20), (5, 50)] : List (ℕ × ℕ)).foldl
        (fun acc p => (BPT.insert 4 acc p.1 p.2).1) (BPT.Tree.leaf [])) 1 3 =
      (BPT.toList (([(1, 10), (2, 20), (5, 50)] : List (ℕ × ℕ)).foldl
        (fun acc p => (BPT.insert 4 acc p.1 p.2).1) (BPT.Tree.leaf []))).filter
        (fun e => decide (1 ≤ e.1) && decide (e.1 < 3))) ∧
    List.Pairwise (· < ·)
      ((BPT.rangeSearch (([(1, 10), (2, 20), (5, 50)] : List (ℕ × ℕ)).foldl
        (fun acc p => (BPT.insert 4 acc p.1 p.2).1) (BPT.Tree.leaf [])) 1 3).map Prod.fst) ∧
    (((2 : ℕ), ({20} : Finset ℕ)) ∈
        BPT.rangeSearch (([(1, 10), (2, 20), (5, 50)] : List (ℕ × ℕ)).foldl
          (fun acc p => (BPT.insert 4 acc p.1 p.2).1) (BPT.Tree.leaf [])) 1 3 ↔
      (1 ≤ 2 ∧ 2 < 3 ∧ ((2 : ℕ), ({20} : Finset ℕ)) ∈
        BPT.toList (([(1, 10), (2, 20), (5, 50)] : List (ℕ × ℕ)).foldl
          (fun acc p => (BPT.insert 4 acc p.1 p.2).1) (BPT.Tree.leaf [])))) := by
  have h := C4_range_search 4 (by decide)
    (([(1, 10), (2, 20), (5, 50)] : List (ℕ × ℕ)).foldl
      (fun acc p => (BPT.insert 4 acc p.1 p.2).1) (BPT.Tree.leaf []))
    ⟨[(1, 10), (2, 20), (5, 50)], rfl⟩ 1 3 (by decide)
  exact ⟨h.1, h.2.1, h.2.2 (2, {20})⟩

/-- C9: on every index variant, re-inserting an already inserted pair
`(k, v)` leaves the result of `search(k')` unchanged for every key `k'`
(values under a key live in a set, so duplicates coalesce). -/
theorem C9_insert_idempotent {K V : Type} [LinearOrder K] [DecidableEq K] [DecidableEq V] :
    (∀ (m : Inv.Map K V) (k : K) (v : V) (q : K),
      Inv.search (Inv.insert (Inv.insert m k v).1 k v).1 q =
        Inv.search (Inv.insert m k v).1 q) ∧
    (∀ (s : SL.Chain K V) (k : K) (v : V) (q : K),
      (SL.search (SL.insert (SL.insert s k v).2 k v).2 q).1 =
        (SL.search (SL.insert s k v).2 q).1) ∧
    (∀ (M : ℕ), 2 ≤ M → ∀ (t : BPT.Tree K V), BPT.Built M t → ∀ (k : K) (v : V) (q : K),
      BPT.search (BPT.insert M (BPT.insert M t k v).1 k v).1 q =
        BPT.search (BPT.insert M t k v).1 q) := by
  refine ⟨?_, ?_, ?_⟩
  · intro m k v q
    rw [Inv.insert_idem]
  · intro s k v q
    rw [SL.insert_idem_state]
  · intro M hM t hb k v q
    have hwf := BPT.built_wf hM t hb
    rw [BPT.insert_fst_eq_insTree, BPT.insert_fst_eq_insTree,
      BPT.insTree_idem hM t k v hwf]

/-- Witness for `C9_insert_idempotent` on concrete states of all three
variants (the B+ tree built by inserting `(1, 10)` at order 4). -/
theorem C9_witness :
    (Inv.search (Inv.insert (Inv.insert (fun _ => (none : Option (Finset ℕ))) 1 2).1 1 2).1 1 =
      Inv.search (Inv.insert (fun _ => (none : Option (Finset ℕ))) 1 2).1 1) ∧
    ((SL.search (SL.insert (SL.insert ([] : SL.Chain ℕ ℕ) 1 2).2 1 2).2 1).1 =
      (SL.search (SL.insert ([] : SL.Chain ℕ ℕ) 1 2).2 1).1) ∧
    (BPT.search (BPT.insert 4 (BPT.insert 4 (([(1, 10)] : List (ℕ × ℕ)).foldl
        (fun acc p => (BPT.insert 4 acc p.1 p.2).1) (BPT.Tree.leaf [])) 1 2).1 1 2).1 1 =
      BPT.search (BPT.insert 4 (([(1, 10)] : List (ℕ × ℕ)).foldl
        (fun acc p => (BPT.insert 4 acc p.1 p.2).1) (BPT.Tree.leaf [])) 1 2).1 1) :=
  ⟨(C9_insert_idempotent (K := ℕ) (V := ℕ)).1 (fun _ => none) 1 2 1,
   (C9_insert_idempotent (K := ℕ) (V := ℕ)).2.1 [] 1 2 1,
   (C9_insert_idempotent (K := ℕ) (V := ℕ)).2.2 4 (by decide) _ ⟨[(1, 10)], rfl⟩ 1 2 1⟩

/- ------------------- claim C3 ------------------- -/

/-- C3: on the B+ tree of order 4, sequentially inserting the keys
"01".."05" (one value each) causes exactly one leaf split; the first four
inserts leave the root a leaf, after the fifth the root is an internal
node with the single key "03" over two leaf children holding keys
["01","02"] and ["03","04","05"], and the promoted separator equals the
smallest key of the new right sibling. -/
theorem C3_split_scenario :
    BPT.traceLeafSplits 4 (BPT.Tree.leaf [] : BPT.Tree (List Char) (List Char))
        [("01".toList, "v".toList), ("02".toList, "v".toList), ("03".toList, "v".toList),
         ("04".toList, "v".toList), ("05".toList, "v".toList)] = 1 ∧
    BPT.isLeaf (([("01".toList, "v".toList), ("02".toList, "v".toList),
         ("03".toList, "v".toList), ("04".toList, "v".toList)] :
          List (List Char × List Char)).foldl
        (fun acc p => (BPT.insert 4 acc p.1 p.2).1) (BPT.Tree.leaf [])) = true ∧
    BPT.isLeaf (([("01".toList, "v".toList), ("02".toList, "v".toList),
         ("03".toList, "v".toList), ("04".toList, "v".toList), ("05".toList, "v".toList)] :
          List (List Char × List Char)).foldl
        (fun acc p => (BPT.insert 4 acc p.1 p.2).1) (BPT.Tree.leaf [])) = false ∧
    BPT.topKeys (([("01".toList, "v".toList), ("02".toList, "v".toList),
         ("03".toList, "v".toList), ("04".toList, "v".toList), ("05".toList, "v".toList)] :
          List (List Char × List Char)).foldl
        (fun acc p => (BPT.insert 4 acc p.1 p.2).1) (BPT.Tree.leaf [])) = ["03".toList] ∧
    BPT.childKeys (([("01".toList, "v".toList), ("02".toList, "v".toList),
         ("03".toList, "v".toList), ("04".toList, "v".toList), ("05".toList, "v".toList)] :
          List (List Char × List Char)).foldl
        (fun acc p => (BPT.insert 4 acc p.1 p.2).1) (BPT.Tree.leaf [])) =
      [["01".toList, "02".toList], ["03".toList, "04".toList, "05".toList]] ∧
    BPT.childrenAreLeaves (([("01".toList, "v".toList), ("02".toList, "v".toList),
         ("03".toList, "v".toList), ("04".toList, "v".toList), ("05".toList, "v".toList)] :
          List (List Char × List Char)).foldl
        (fun acc p => (BPT.insert 4 acc p.1 p.2).1) (BPT.Tree.leaf [])) = true ∧
    ((BPT.childKeys (([("01".toList, "v".toList), ("02".toList, "v".toList),
         ("03".toList, "v".toList), ("04".toList, "v".toList), ("05".toList, "v".toList)] :
          List (List Char × List Char)).foldl
        (fun acc p => (BPT.insert 4 acc p.1 p.2).1) (BPT.Tree.leaf []))).getD 1 []).head? =
      some "03".toList := by
  have e1 : BPT.optIns 4 (BPT.Tree.leaf [] : BPT.Tree (List Char) (List Char))
      "01".toList "v".toList =
      (true, .leaf [("01".toList, {"v".toList})]) := by
    rw [BPT.optIns_leaf_eq]
    rfl
  have i1 : BPT.insert 4 (BPT.Tree.leaf [] : BPT.Tree (List Char) (List Char))
      "01".toList "v".toList =
      (.leaf [("01".toList, {"v".toList})], true) := by
    unfold BPT.insert
    rw [e1]
  have e2 : BPT.optIns 4
      (BPT.Tree.leaf [("01".toList, {"v".toList})] : BPT.Tree (List Char) (List Char))
      "02".toList "v".toList =
      (true, .leaf [("01".toList, {"v".toList}), ("02".toList, {"v".toList})]) := by
    rw [BPT.optIns_leaf_eq]
    rfl
  have i2 : BPT.insert 4
      (BPT.Tree.leaf [("01".toList, {"v".toList})] : BPT.Tree (List Char) (List Char))
      "02".toList "v".toList =
      (.leaf [("01".toList, {"v".toList}), ("02".toList, {"v".toList})], true) := by
    unfold BPT.insert
    rw [e2]
  have e3 : BPT.optIns 4
      (BPT.Tree.leaf [("01".toList, {"v".toList}), ("02".toList, {"v".toList})] :
        BPT.Tree (List Char) (List Char))
      "03".toList "v".toList =
      (true, .leaf [("01".toList, {"v".toList}), ("02".toList, {"v".toList}),
        ("03".toList, {"v".toList})]) := by
    rw [BPT.optIns_leaf_eq]
    rfl
  have i3 : BPT.insert 4
      (BPT.Tree.leaf [("01".toList, {"v".toList}), ("02".toList, {"v".toList})] :
        BPT.Tree (List Char) (List Char))
      "03".toList "v".toList =
      (.leaf [("01".toList, {"v".toList}), ("02".toList, {"v".toList}),
        ("03".toList, {"v".toList})], true) := by
    unfold BPT.insert
    rw [e3]
  have e4 : BPT.optIns 4
      (BPT.Tree.leaf [("01".toList, {"v".toList}), ("02".toList, {"v".toList}),
        ("03".toList, {"v".toList})] : BPT.Tree (List Char) (List Char))
      "04".toList "v".toList =
      (true, .leaf [("01".toList, {"v".toList}), ("02".toList, {"v".toList}),
        ("03".toList, {"v".toList}), ("04".toList, {"v".toList})]) := by
    rw [BPT.optIns_leaf_eq]
    rfl
  have i4 : BPT.insert 4
      (BPT.Tree.leaf [("01".toList, {"v".toList}), ("02".toList, {"v".toList}),
        ("03".toList, {"v".toList})] : BPT.Tree (List Char) (List Char))
      "04".toList "v".toList =
      (.leaf [("01".toList, {"v".toList}), ("02".toList, {"v".toList}),
        ("03".toList, {"v".toList}), ("04".toList, {"v".toList})], true) := by
    unfold BPT.insert
    rw [e4]
  have e5 : BPT.optIns 4
      (BPT.Tree.leaf [("01".toList, {"v".toList}), ("02".toList, {"v".toList}),
        ("03".toList, {"v".toList}), ("04".toList, {"v".toList})] :
        BPT.Tree (List Char) (List Char))
      "05".toList "v".toList =
      (false, .leaf [("01".toList, {"v".toList}), ("02".toList, {"v".toList}),
        ("03".toList, {"v".toList}), ("04".toList, {"v".toList})]) := by
    rw [BPT.optIns_leaf_eq]
    rfl
  have r5 : BPT.insRec 4
      (BPT.Tree.leaf [("01".toList, {"v".toList}), ("02".toList, {"v".toList}),
        ("03".toList, {"v".toList}), ("04".toList, {"v".toList})] :
        BPT.Tree (List Char) (List Char))
      "05".toList "v".toList =
      (.leaf [("01".toList, {"v".toList}), ("02".toList, {"v".toList})],
        some (.leaf [("03".toList, {"v".toList}), ("04".toList, {"v".toList}),
          ("05".toList, {"v".toList})], "03".toList)) := by
    rw [BPT.insRec_leaf_eq]
    rfl
  have it5 : BPT.insTree 4
      (BPT.Tree.leaf [("01".toList, {"v".toList}), ("02".toList, {"v".toList}),
        ("03".toList, {"v".toList}), ("04".toList, {"v".toList})] :
        BPT.Tree (List Char) (List Char))
      "05".toList "v".toList =
      .node ["03".toList]
        [.leaf [("01".toList, {"v".toList}), ("02".toList, {"v".toList})],
         .leaf [("03".toList, {"v".toList}), ("04".toList, {"v".toList}),
           ("05".toList, {"v".toList})]] := by
    unfold BPT.insTree
    rw [r5]
  have i5 : BPT.insert 4
      (BPT.Tree.leaf [("01".toList, {"v".toList}), ("02".toList, {"v".toList}),
        ("03".toList, {"v".toList}), ("04".toList, {"v".toList})] :
        BPT.Tree (List Char) (List Char))
      "05".toList "v".toList =
      (.node ["03".toList]
        [.leaf [("01".toList, {"v".toList}), ("02".toList, {"v".toList})],
         .leaf [("03".toList, {"v".toList}), ("04".toList, {"v".toList}),
           ("05".toList, {"v".toList})]], true) := by
    unfold BPT.insert
    rw [e5]
    dsimp only
    rw [it5]
  have f1 : (BPT.insert 4 (BPT.Tree.leaf [] : BPT.Tree (List Char) (List Char))
      "01".toList "v".toList).1 = .leaf [("01".toList, {"v".toList})] := by
    rw [i1]
  have f2 : (BPT.insert 4
      (BPT.Tree.leaf [("01".toList, {"v".toList})] : BPT.Tree (List Char) (List Char))
      "02".toList "v".toList).1 =
      .leaf [("01".toList, {"v".toList}), ("02".toList, {"v".toList})] := by
    rw [i2]
  have f3 : (BPT.insert 4
      (BPT.Tree.leaf [("01".toList, {"v".toList}), ("02".toList, {"v".toList})] :
        BPT.Tree (List Char) (List Char))
      "03".toList "v".toList).1 =
      .leaf [("01".toList, {"v".toList}), ("02".toList, {"v".toList}),
        ("03".toList, {"v".toList})] := by
    rw [i3]
  have f4 : (BPT.insert 4
      (BPT.Tree.leaf [("01".toList, {"v".toList}), ("02".toList, {"v".toList}),
        ("03".toList, {"v".toList})] : BPT.Tree (List Char) (List Char))
      "04".toList "v".toList).1 =
      .leaf [("01".toList, {"v".toList}), ("02".toList, {"v".toList}),
        ("03".toList, {"v".toList}), ("04".toList, {"v".toList})] := by
    rw [i4]
  have f5 : (BPT.insert 4
      (BPT.Tree.leaf [("01".toList, {"v".toList}), ("02".toList, {"v".toList}),
        ("03".toList, {"v".toList}), ("04".toList, {"v".toList})] :
        BPT.Tree (List Char) (List Char))
      "05".toList "v".toList).1 =
      .node ["03".toList]
        [.leaf [("01".toList, {"v".toList}), ("02".toList, {"v".toList})],
         .leaf [("03".toList, {"v".toList}), ("04".toList, {"v".toList}),
           ("05".toList, {"v".toList})]] := by
    rw [i5]
  have hT4 : ([("01".toList, "v".toList), ("02".toList, "v".toList),
      ("03".toList, "v".toList), ("04".toList, "v".toList)] :
        List (List Char × List Char)).foldl
      (fun acc p => (BPT.insert 4 acc p.1 p.2).1) (BPT.Tree.leaf []) =
      .leaf [("01".toList, {"v".toList}), ("02".toList, {"v".toList}),
        ("03".toList, {"v".toList}), ("04".toList, {"v".toList})] := by
    simp only [List.foldl_cons, List.foldl_nil]
    rw [f1, f2, f3, f4]
  have hT5 : ([("01".toList, "v".toList), ("02".toList, "v".toList),
      ("03".toList, "v".toList), ("04".toList, "v".toList), ("05".toList, "v".toList)] :
        List (List Char × List Char)).foldl
      (fun acc p => (BPT.insert 4 acc p.1 p.2).1) (BPT.Tree.leaf []) =
      .node ["03".toList]
        [.leaf [("01".toList, {"v".toList}), ("02".toList, {"v".toList})],
         .leaf [("03".toList, {"v".toList}), ("04".toList, {"v".toList}),
           ("05".toList, {"v".toList})]] := by
    simp only [List.foldl_cons, List.foldl_nil]
    rw [f1, f2, f3, f4, f5]
  have htr : BPT.traceLeafSplits 4 (BPT.Tree.leaf [] : BPT.Tree (List Char) (List Char))
      [("01".toList, "v".toList), ("02".toList, "v".toList), ("03".toList, "v".toList),
       ("04".toList, "v".toList), ("05".toList, "v".toList)] = 1 := by
    simp only [BPT.traceLeafSplits]
    rw [f1, f2, f3, f4]
    rw [BPT.leafSplits_leaf, BPT.leafSplits_leaf, BPT.leafSplits_leaf,
      BPT.leafSplits_leaf, BPT.leafSplits_leaf]
    rfl
  refine ⟨htr, ?_, ?_, ?_, ?_, ?_, ?_⟩
  · rw [hT4]
    rfl
  · rw [hT5]
    rfl
  · rw [hT5]
    rfl
  · rw [hT5]
    rfl
  · rw [hT5]
    rfl
  · rw [hT5]
    rfl

end GdprIndex
